import Mathlib

/-
Verification development for the streaming speech-to-text pipeline of
native_client/deepspeech.cc.

The embedding models the streaming buffering/batching pipeline exactly as the
C++ source implements it:

  - `StreamingState` mirrors struct StreamingState (accumulated_logits,
    audio_buffer, last_sample, mfcc_buffer, batch_buffer, skip_next_mfcc),
    plus a ghost `events` trace that records, without influencing behaviour,
    the observable calls the code makes (processed raw windows, feature-vector
    pushes, emitted timesteps, inference calls).  This plays the role of the
    "recording mock" collaborators that the testable properties speak about.
  - `ModelState` mirrors struct ModelState; the external collaborators
    (c_speech_features' csf_mfcc, the TensorFlow session, the CTC decoder)
    are fields holding arbitrary functions, since their code is outside this
    translation unit.
  - Sample and feature values are modelled as exact rationals (`ℚ`); the C++
    float constant 0.97f becomes the exact coefficient 97/100.  All claims
    below are about buffer framing and control flow, not float rounding.
  - The C++ loops that copy data in chunks (feedAudioContent's inner while,
    pushMfccBuffer, processMfccWindow) are modelled element-by-element: the
    chunked copy `insert(end, buf, buf + min(len, capacity - size))` followed
    by a fullness check reaches exactly the same states as pushing one element
    at a time and checking fullness after each push, because the copy amount
    is capped at exactly the remaining capacity.
-/

namespace DeepSpeech

/-- const unsigned int BATCH_SIZE = 1 -/
def BATCH_SIZE : ℕ := 1

/-- const unsigned int SAMPLE_RATE = 16000 -/
def SAMPLE_RATE : ℕ := 16000

/-- AUDIO_WIN_LEN_SAMPLES = (unsigned int)(0.025f * 16000) = 400 -/
def AUDIO_WIN_LEN_SAMPLES : ℕ := 400

/-- AUDIO_WIN_STEP_SAMPLES = (unsigned int)(0.01f * 16000) = 160 -/
def AUDIO_WIN_STEP_SAMPLES : ℕ := 160

/-- const unsigned int MFCC_FEATURES = 26 -/
def MFCC_FEATURES : ℕ := 26

/-- const float PREEMPHASIS_COEFF = 0.97f, as an exact rational -/
def PREEMPHASIS_COEFF : ℚ := 97 / 100

/-- Ghost trace entries recording the externally observable calls made by the
streaming pipeline.  They are appended by the operations below but never read
by them, so they do not influence behaviour; they model what a recording mock
of the collaborators would log. -/
inductive Event where
  /-- processAudioWindow ran on a raw window; `emitted` records whether the
  decimation toggle let the window produce a feature vector. -/
  | audioWindow (emitted : Bool)
  /-- pushMfccBuffer was entered with feature data `v`. -/
  | featPush (v : List ℚ)
  /-- mfcc_buffer reached mfcc_feats_per_timestep and the full buffer `v`
  was handed to processMfccWindow as one timestep. -/
  | timestep (v : List ℚ)
  /-- processBatch ran ModelState::infer with `nFrames` timesteps;
  `ok` records whether the session call succeeded. -/
  | inferCall (nFrames : ℕ) (ok : Bool)
deriving DecidableEq, Repr

/-- struct StreamingState (the model pointer is passed explicitly to each
operation instead of being stored; `events` is the ghost trace). -/
structure StreamingState where
  accumulated_logits : List ℚ
  audio_buffer : List ℚ
  last_sample : ℚ
  mfcc_buffer : List ℚ
  batch_buffer : List ℚ
  skip_next_mfcc : Bool
  events : List Event
deriving DecidableEq, Repr

/-- struct ModelState.  The fields that only serve model loading
(mmap_env, graph_def, beam_width, scorer, ncep, ncontext) are omitted; the
external collaborators appear as function-valued fields. -/
structure ModelState where
  /-- n_steps: timesteps per inference batch, read from the input_node shape. -/
  n_steps : ℕ
  /-- mfcc_feats_per_timestep = shape.dim(2).size * shape.dim(3).size. -/
  mfcc_feats_per_timestep : ℕ
  /-- n_context = (shape.dim(2).size - 1) / 2. -/
  n_context : ℕ
  /-- alphabet->GetSize(). -/
  alphabet_size : ℕ
  /-- Modelled from the spec: csf_mfcc from c_speech_features (not part of
  this translation unit) maps a raw audio window to the feature frame(s) it
  extracts; the core reads exactly MFCC_FEATURES floats of its output. -/
  mfccFn : List ℚ → List ℚ
  /-- Modelled from the spec: the TensorFlow session run on the acoustic
  model.  Input is the zero-padded batch of n_steps * mfcc_feats_per_timestep
  features plus the real frame count; `none` models a failed Status, `some`
  returns the output logits tensor contents. -/
  inferFn : List ℚ → ℕ → Option (List ℚ)
  /-- Modelled from the spec: ctc_beam_search_decoder plus LabelsToString,
  mapping the per-frame probability rows to the best transcript. -/
  decodeFn : List (List ℚ) → String

/-- num_classes = alphabet->GetSize() + 1 (+1 for blank). -/
def ModelState.num_classes (m : ModelState) : ℕ := m.alphabet_size + 1

/-- Input tensor construction in ModelState::infer: the first
n_frames * mfcc_feats_per_timestep entries are copied from the batch, the
rest (up to n_steps * mfcc_feats_per_timestep) are zero-filled. -/
def padInput (model : ModelState) (mfcc : List ℚ) (n_frames : ℕ) : List ℚ :=
  mfcc.take (n_frames * model.mfcc_feats_per_timestep) ++
    List.replicate (model.n_steps * model.mfcc_feats_per_timestep -
      n_frames * model.mfcc_feats_per_timestep) 0

/-- ModelState::infer.  On session failure (inferFn = none) the error is only
logged and logits_output is returned unchanged; on success, the first
n_frames * BATCH_SIZE * num_classes entries of the output tensor are appended.
The Bool result is ghost information for the event trace. -/
def ModelState.infer (model : ModelState) (mfcc : List ℚ) (n_frames : ℕ)
    (logits_output : List ℚ) : List ℚ × Bool :=
  match model.inferFn (padInput model mfcc n_frames) n_frames with
  | none => (logits_output, false)
  | some out =>
      (logits_output ++ out.take (n_frames * BATCH_SIZE * model.num_classes), true)

/-- StreamingState::processBatch: one inference step on `buf` with `n_steps_arg`
timesteps, accumulating into accumulated_logits. -/
def processBatch (model : ModelState) (s : StreamingState) (buf : List ℚ)
    (n_steps_arg : ℕ) : StreamingState :=
  let r := ModelState.infer model buf n_steps_arg s.accumulated_logits
  { s with accumulated_logits := r.1
           events := s.events ++ [Event.inferCall n_steps_arg r.2] }

/-- One element of the copy loop in StreamingState::processMfccWindow: append
to batch_buffer; when it reaches n_steps * mfcc_feats_per_timestep, run
processBatch on the full batch and reset the buffer. -/
def pushBatchOne (model : ModelState) (s : StreamingState) (x : ℚ) :
    StreamingState :=
  let s' := { s with batch_buffer := s.batch_buffer ++ [x] }
  if s'.batch_buffer.length = model.n_steps * model.mfcc_feats_per_timestep then
    { processBatch model s' s'.batch_buffer model.n_steps with batch_buffer := [] }
  else s'

/-- StreamingState::processMfccWindow: copy the timestep `buf` into
batch_buffer, flushing full batches through processBatch. -/
def processMfccWindow (model : ModelState) (s : StreamingState) (buf : List ℚ) :
    StreamingState :=
  buf.foldl (pushBatchOne model) s

/-- One element of the copy loop in StreamingState::pushMfccBuffer: append to
mfcc_buffer; when it reaches mfcc_feats_per_timestep, hand the whole buffer to
processMfccWindow as one timestep, then slide it left by MFCC_FEATURES
(std::rotate by MFCC_FEATURES followed by resize drops exactly the oldest
feature vector). -/
def pushMfccOne (model : ModelState) (s : StreamingState) (x : ℚ) :
    StreamingState :=
  let s' := { s with mfcc_buffer := s.mfcc_buffer ++ [x] }
  if s'.mfcc_buffer.length = model.mfcc_feats_per_timestep then
    let s2 := processMfccWindow model
      { s' with events := s'.events ++ [Event.timestep s'.mfcc_buffer] }
      s'.mfcc_buffer
    { s2 with mfcc_buffer := s2.mfcc_buffer.drop MFCC_FEATURES }
  else s'

/-- StreamingState::pushMfccBuffer.  The ghost featPush event records the
pushed feature data. -/
def pushMfccBuffer (model : ModelState) (s : StreamingState) (buf : List ℚ) :
    StreamingState :=
  buf.foldl (pushMfccOne model) { s with events := s.events ++ [Event.featPush buf] }

/-- StreamingState::processAudioWindow: flip skip_next_mfcc; if it became
false, the window is skipped; if it became true, compute the MFCC features of
`buf` (one frame, MFCC_FEATURES floats are read) and push them. -/
def processAudioWindow (model : ModelState) (s : StreamingState) (buf : List ℚ) :
    StreamingState :=
  let s' := { s with skip_next_mfcc := !s.skip_next_mfcc
                     events := s.events ++ [Event.audioWindow (!s.skip_next_mfcc)] }
  if !s.skip_next_mfcc then
    pushMfccBuffer model s' ((model.mfccFn buf).take (1 * MFCC_FEATURES))
  else s'

/-- StreamingState::addZeroMfccWindow: push MFCC_FEATURES zero features. -/
def addZeroMfccWindow (model : ModelState) (s : StreamingState) : StreamingState :=
  pushMfccBuffer model s (List.replicate MFCC_FEATURES 0)

/-- The finishStream loop `for (i = 0; i < n_context; ++i) addZeroMfccWindow()`. -/
def addZeroWindows (model : ModelState) : ℕ → StreamingState → StreamingState
  | 0, s => s
  | n + 1, s => addZeroWindows model n (addZeroMfccWindow model s)

/-- The body of feedAudioContent's inner loop for one sample: apply the
pre-emphasis filter and buffer the result, remembering the raw sample. -/
def pushSample (s : StreamingState) (x : ℤ) : StreamingState :=
  { s with audio_buffer := s.audio_buffer ++ [(x : ℚ) - PREEMPHASIS_COEFF * s.last_sample]
           last_sample := (x : ℚ) }

/-- The fullness check of feedAudioContent's outer loop: when audio_buffer
reaches AUDIO_WIN_LEN_SAMPLES, process the window and shift left by one step
(std::rotate by AUDIO_WIN_STEP_SAMPLES plus resize drops the oldest step). -/
def checkFullWindow (model : ModelState) (s : StreamingState) : StreamingState :=
  if s.audio_buffer.length = AUDIO_WIN_LEN_SAMPLES then
    let s' := processAudioWindow model s s.audio_buffer
    { s' with audio_buffer := s'.audio_buffer.drop AUDIO_WIN_STEP_SAMPLES }
  else s

/-- StreamingState::feedAudioContent: consume all input samples, processing
full windows as they form.  (On every state the code can reach, the buffer
fills to exactly AUDIO_WIN_LEN_SAMPLES and is immediately processed, so the
chunked inner loop equals this per-sample recursion.) -/
def feedAudioContent (model : ModelState) (s : StreamingState) :
    List ℤ → StreamingState
  | [] => s
  | x :: rest => feedAudioContent model (checkFullWindow model (pushSample s x)) rest

/-- ModelState::decode: reshape the accumulated logits into
n_frames = size / (BATCH_SIZE * num_classes) rows of num_classes entries and
hand them to the external decoder. -/
def ModelState.decode (model : ModelState) (logits : List ℚ) : String :=
  let n_frames := logits.length / (BATCH_SIZE * model.num_classes)
  model.decodeFn ((List.range n_frames).map (fun t =>
    (List.range model.num_classes).map (fun i =>
      logits.getD (t * model.num_classes + i) 0)))

/-- StreamingState::intermediateDecode. -/
def intermediateDecode (model : ModelState) (s : StreamingState) : String :=
  model.decode s.accumulated_logits

/-- StreamingState::finishStream: flush the raw window, add n_context zero
feature vectors, process the final partial batch, and decode. -/
def finishStream (model : ModelState) (s : StreamingState) :
    StreamingState × String :=
  let s1 := processAudioWindow model s s.audio_buffer
  let s2 := addZeroWindows model model.n_context s1
  let s3 := if 0 < s2.batch_buffer.length then
      processBatch model s2 s2.batch_buffer
        (s2.batch_buffer.length / model.mfcc_feats_per_timestep)
    else s2
  (s3, model.decode s3.accumulated_logits)

/-- DS_SetupStream: fresh StreamingState with mfcc_buffer pre-filled with
MFCC_FEATURES * n_context zeros, all other buffers empty, last_sample 0 and
skip_next_mfcc false.  (The initialize_state session run and the reserve
calls do not affect the buffer contents.) -/
def DS_SetupStream (model : ModelState) : StreamingState :=
  { accumulated_logits := []
    audio_buffer := []
    last_sample := 0
    mfcc_buffer := List.replicate (MFCC_FEATURES * model.n_context) 0
    batch_buffer := []
    skip_next_mfcc := false
    events := [] }

/-- Validity of a loaded model, as the spec's StreamConfiguration invariant
states it: the derived feature geometry is consistent (the input_node shape
has dim(3) = MFCC_FEATURES and odd dim(2) = 2*n_context+1), at least one
timestep per batch, and the feature extractor honours its contract of one
MFCC_FEATURES-wide frame per window. -/
def ModelState.wellFormed (m : ModelState) : Prop :=
  m.mfcc_feats_per_timestep = MFCC_FEATURES * (2 * m.n_context + 1) ∧
  1 ≤ m.n_steps ∧
  ∀ buf, (m.mfccFn buf).length = MFCC_FEATURES

/-- States of a streaming session reachable through the public API: stream
setup followed by any number of feedAudioContent and finishStream calls
(intermediateDecode does not change the state). -/
inductive Reachable (model : ModelState) : StreamingState → Prop where
  | setup : Reachable model (DS_SetupStream model)
  | feed {s} (xs : List ℤ) : Reachable model s →
      Reachable model (feedAudioContent model s xs)
  | finish {s} : Reachable model s →
      Reachable model (finishStream model s).1

/-- The pre-emphasized values that feeding `xs` appends to the raw window
(before any window shifting), starting from previous raw sample `last`. -/
def preemphasize (last : ℚ) : List ℤ → List ℚ
  | [] => []
  | x :: rest => ((x : ℚ) - PREEMPHASIS_COEFF * last) :: preemphasize (x : ℚ) rest

/-- The value of last_sample after feeding `xs` on top of previous value
`last`. -/
def lastSampleAfter (last : ℚ) : List ℤ → ℚ
  | [] => last
  | x :: rest => lastSampleAfter (x : ℚ) rest

/-- Projection of the ghost trace onto processed raw windows: one Bool per
audioWindow event, true when the window emitted a feature vector. -/
def winArg : Event → Option Bool
  | Event.audioWindow b => some b
  | _ => none

/-- Projection of the ghost trace onto pushMfccBuffer calls. -/
def pushArg : Event → Option (List ℚ)
  | Event.featPush v => some v
  | _ => none

/-- Projection of the ghost trace onto emitted timesteps. -/
def tsArg : Event → Option (List ℚ)
  | Event.timestep v => some v
  | _ => none

/-- Projection of the ghost trace onto inference calls: frame count and
success flag. -/
def inferArg : Event → Option (ℕ × Bool)
  | Event.inferCall n ok => some (n, ok)
  | _ => none

/-- The decimation pattern: of `n` consecutive completed windows (0-indexed),
exactly the even-indexed ones emit. -/
def altPattern (n : ℕ) : List Bool :=
  (List.range n).map (fun k => decide (k % 2 = 0))

theorem length_preemphasize (last : ℚ) (xs : List ℤ) :
    (preemphasize last xs).length = xs.length := by
  induction xs generalizing last with
  | nil => rfl
  | cons x rest ih => simp [preemphasize, ih]

theorem preemphasize_zeros (n : ℕ) :
    preemphasize 0 (List.replicate n 0) = List.replicate n (0 : ℚ) := by
  induction n with
  | zero => rfl
  | succ n ih =>
      simp only [List.replicate_succ, preemphasize]
      norm_num [ih]

theorem lastSampleAfter_zeros (n : ℕ) :
    lastSampleAfter 0 (List.replicate n 0) = 0 := by
  induction n with
  | zero => rfl
  | succ n ih =>
      simp only [List.replicate_succ, lastSampleAfter]
      norm_num [ih]

theorem processBatch_fields (model : ModelState) (s : StreamingState)
    (buf : List ℚ) (n : ℕ) :
    (processBatch model s buf n).audio_buffer = s.audio_buffer ∧
    (processBatch model s buf n).last_sample = s.last_sample ∧
    (processBatch model s buf n).skip_next_mfcc = s.skip_next_mfcc ∧
    (processBatch model s buf n).mfcc_buffer = s.mfcc_buffer ∧
    (processBatch model s buf n).batch_buffer = s.batch_buffer := by
  simp [processBatch]

theorem pushBatchOne_fields (model : ModelState) (s : StreamingState) (x : ℚ) :
    (pushBatchOne model s x).audio_buffer = s.audio_buffer ∧
    (pushBatchOne model s x).last_sample = s.last_sample ∧
    (pushBatchOne model s x).skip_next_mfcc = s.skip_next_mfcc ∧
    (pushBatchOne model s x).mfcc_buffer = s.mfcc_buffer := by
  unfold pushBatchOne
  dsimp only
  by_cases h : (s.batch_buffer ++ [x]).length = model.n_steps * model.mfcc_feats_per_timestep
  · rw [if_pos h]; simp [processBatch]
  · rw [if_neg h]; exact ⟨rfl, rfl, rfl, rfl⟩

theorem processMfccWindow_fields (model : ModelState) (buf : List ℚ) :
    ∀ s : StreamingState,
    (processMfccWindow model s buf).audio_buffer = s.audio_buffer ∧
    (processMfccWindow model s buf).last_sample = s.last_sample ∧
    (processMfccWindow model s buf).skip_next_mfcc = s.skip_next_mfcc ∧
    (processMfccWindow model s buf).mfcc_buffer = s.mfcc_buffer := by
  induction buf with
  | nil => intro s; exact ⟨rfl, rfl, rfl, rfl⟩
  | cons x rest ih =>
      intro s
      have h1 := pushBatchOne_fields model s x
      have h2 := ih (pushBatchOne model s x)
      simp only [processMfccWindow, List.foldl_cons] at h2 ⊢
      exact ⟨h2.1.trans h1.1, h2.2.1.trans h1.2.1,
        h2.2.2.1.trans h1.2.2.1, h2.2.2.2.trans h1.2.2.2⟩

theorem pushMfccOne_fields (model : ModelState) (s : StreamingState) (x : ℚ) :
    (pushMfccOne model s x).audio_buffer = s.audio_buffer ∧
    (pushMfccOne model s x).last_sample = s.last_sample ∧
    (pushMfccOne model s x).skip_next_mfcc = s.skip_next_mfcc := by
  unfold pushMfccOne
  dsimp only
  by_cases h : (s.mfcc_buffer ++ [x]).length = model.mfcc_feats_per_timestep
  · rw [if_pos h]
    have h2 := processMfccWindow_fields model (s.mfcc_buffer ++ [x])
      { s with mfcc_buffer := s.mfcc_buffer ++ [x]
               events := s.events ++ [Event.timestep (s.mfcc_buffer ++ [x])] }
    exact ⟨h2.1, h2.2.1, h2.2.2.1⟩
  · rw [if_neg h]
    exact ⟨rfl, rfl, rfl⟩

theorem pushMfccBuffer_fields (model : ModelState) (buf : List ℚ) :
    ∀ s : StreamingState,
    (pushMfccBuffer model s buf).audio_buffer = s.audio_buffer ∧
    (pushMfccBuffer model s buf).last_sample = s.last_sample ∧
    (pushMfccBuffer model s buf).skip_next_mfcc = s.skip_next_mfcc := by
  have core : ∀ (l : List ℚ) (s : StreamingState),
      (l.foldl (pushMfccOne model) s).audio_buffer = s.audio_buffer ∧
      (l.foldl (pushMfccOne model) s).last_sample = s.last_sample ∧
      (l.foldl (pushMfccOne model) s).skip_next_mfcc = s.skip_next_mfcc := by
    intro l
    induction l with
    | nil => intro s; exact ⟨rfl, rfl, rfl⟩
    | cons x rest ih =>
        intro s
        have h1 := pushMfccOne_fields model s x
        have h2 := ih (pushMfccOne model s x)
        simp only [List.foldl_cons] at h2 ⊢
        exact ⟨h2.1.trans h1.1, h2.2.1.trans h1.2.1, h2.2.2.trans h1.2.2⟩
  intro s
  have h := core buf { s with events := s.events ++ [Event.featPush buf] }
  simpa [pushMfccBuffer] using h

theorem processAudioWindow_fields (model : ModelState) (s : StreamingState)
    (buf : List ℚ) :
    (processAudioWindow model s buf).audio_buffer = s.audio_buffer ∧
    (processAudioWindow model s buf).last_sample = s.last_sample ∧
    (processAudioWindow model s buf).skip_next_mfcc = !s.skip_next_mfcc := by
  unfold processAudioWindow
  dsimp only
  cases hsk : s.skip_next_mfcc with
  | false =>
      simp only [hsk, Bool.not_false, if_true]
      have h := pushMfccBuffer_fields model
        ((model.mfccFn buf).take (1 * MFCC_FEATURES))
        { s with skip_next_mfcc := true
                 events := s.events ++ [Event.audioWindow true] }
      exact ⟨h.1, h.2.1, h.2.2⟩
  | true =>
      simp [hsk]

theorem processMfccWindow_nil (model : ModelState) (s : StreamingState) :
    processMfccWindow model s [] = s := rfl

theorem processMfccWindow_cons (model : ModelState) (s : StreamingState)
    (x : ℚ) (rest : List ℚ) :
    processMfccWindow model s (x :: rest) =
      processMfccWindow model (pushBatchOne model s x) rest := rfl

theorem processBatch_events (model : ModelState) (s : StreamingState)
    (buf : List ℚ) (n : ℕ) :
    (processBatch model s buf n).events = s.events ++
      [Event.inferCall n (ModelState.infer model buf n s.accumulated_logits).2] := rfl

theorem pushBatchOne_events (model : ModelState) (s : StreamingState) (x : ℚ) :
    ∃ d, (pushBatchOne model s x).events = s.events ++ d ∧
      d.filterMap winArg = [] ∧ d.filterMap pushArg = [] ∧ d.filterMap tsArg = [] := by
  unfold pushBatchOne
  dsimp only
  by_cases h : (s.batch_buffer ++ [x]).length = model.n_steps * model.mfcc_feats_per_timestep
  · rw [if_pos h]
    exact ⟨[Event.inferCall model.n_steps
        (ModelState.infer model (s.batch_buffer ++ [x]) model.n_steps
          s.accumulated_logits).2],
      by simp [processBatch], by simp [winArg], by simp [pushArg], by simp [tsArg]⟩
  · rw [if_neg h]
    exact ⟨[], by simp, rfl, rfl, rfl⟩

theorem processMfccWindow_events (model : ModelState) (buf : List ℚ) :
    ∀ s : StreamingState,
    ∃ d, (processMfccWindow model s buf).events = s.events ++ d ∧
      d.filterMap winArg = [] ∧ d.filterMap pushArg = [] ∧ d.filterMap tsArg = [] := by
  induction buf with
  | nil => intro s; exact ⟨[], by simp [processMfccWindow_nil], rfl, rfl, rfl⟩
  | cons x rest ih =>
      intro s
      obtain ⟨d1, hd1, hw1, hp1, ht1⟩ := pushBatchOne_events model s x
      obtain ⟨d2, hd2, hw2, hp2, ht2⟩ := ih (pushBatchOne model s x)
      refine ⟨d1 ++ d2, ?_, ?_, ?_, ?_⟩
      · rw [processMfccWindow_cons, hd2, hd1, List.append_assoc]
      · simp [List.filterMap_append, hw1, hw2]
      · simp [List.filterMap_append, hp1, hp2]
      · simp [List.filterMap_append, ht1, ht2]

theorem pushMfccOne_events (model : ModelState) (s : StreamingState) (x : ℚ) :
    ∃ d, (pushMfccOne model s x).events = s.events ++ d ∧
      d.filterMap winArg = [] ∧ d.filterMap pushArg = [] := by
  unfold pushMfccOne
  dsimp only
  by_cases h : (s.mfcc_buffer ++ [x]).length = model.mfcc_feats_per_timestep
  · rw [if_pos h]
    obtain ⟨d2, hd2, hw2, hp2, _⟩ := processMfccWindow_events model
      (s.mfcc_buffer ++ [x])
      { s with mfcc_buffer := s.mfcc_buffer ++ [x]
               events := s.events ++ [Event.timestep (s.mfcc_buffer ++ [x])] }
    refine ⟨Event.timestep (s.mfcc_buffer ++ [x]) :: d2, ?_, ?_, ?_⟩
    · simp only at hd2
      simp [hd2]
    · simp [List.filterMap_cons, winArg, hw2]
    · simp [List.filterMap_cons, pushArg, hp2]
  · rw [if_neg h]
    exact ⟨[], by simp, rfl, rfl⟩

theorem mfccFold_events (model : ModelState) (buf : List ℚ) :
    ∀ s : StreamingState,
    ∃ d, (buf.foldl (pushMfccOne model) s).events = s.events ++ d ∧
      d.filterMap winArg = [] ∧ d.filterMap pushArg = [] := by
  induction buf with
  | nil => intro s; exact ⟨[], by simp, rfl, rfl⟩
  | cons x rest ih =>
      intro s
      obtain ⟨d1, hd1, hw1, hp1⟩ := pushMfccOne_events model s x
      obtain ⟨d2, hd2, hw2, hp2⟩ := ih (pushMfccOne model s x)
      refine ⟨d1 ++ d2, ?_, ?_, ?_⟩
      · rw [List.foldl_cons, hd2, hd1, List.append_assoc]
      · simp [List.filterMap_append, hw1, hw2]
      · simp [List.filterMap_append, hp1, hp2]

theorem pushMfccBuffer_events (model : ModelState) (s : StreamingState)
    (buf : List ℚ) :
    ∃ r, (pushMfccBuffer model s buf).events = s.events ++ Event.featPush buf :: r ∧
      r.filterMap winArg = [] ∧ r.filterMap pushArg = [] := by
  obtain ⟨d, hd, hw, hp⟩ := mfccFold_events model buf
    { s with events := s.events ++ [Event.featPush buf] }
  exact ⟨d, by simpa [pushMfccBuffer] using hd, hw, hp⟩

theorem processAudioWindow_events (model : ModelState) (s : StreamingState)
    (buf : List ℚ) :
    ∃ r, (processAudioWindow model s buf).events =
        s.events ++ Event.audioWindow (!s.skip_next_mfcc) :: r ∧
      r.filterMap winArg = [] := by
  unfold processAudioWindow
  dsimp only
  cases hsk : s.skip_next_mfcc with
  | false =>
      simp only [hsk, Bool.not_false, if_true]
      obtain ⟨r, hr, hw, _⟩ := pushMfccBuffer_events model
        { s with skip_next_mfcc := true
                 events := s.events ++ [Event.audioWindow true] }
        ((model.mfccFn buf).take (1 * MFCC_FEATURES))
      refine ⟨Event.featPush ((model.mfccFn buf).take (1 * MFCC_FEATURES)) :: r, ?_, ?_⟩
      · simp only at hr ⊢
        rw [hr]
        simp
      · simp [List.filterMap_cons, winArg, hw]
  | true =>
      simp only [hsk, Bool.not_true, Bool.false_eq_true, if_false]
      exact ⟨[], by simp, rfl⟩

theorem addZeroMfccWindow_events (model : ModelState) (s : StreamingState) :
    ∃ d, (addZeroMfccWindow model s).events = s.events ++ d ∧
      d.filterMap winArg = [] ∧
      d.filterMap pushArg = [List.replicate MFCC_FEATURES 0] := by
  obtain ⟨r, hr, hw, hp⟩ := pushMfccBuffer_events model s
    (List.replicate MFCC_FEATURES 0)
  refine ⟨Event.featPush (List.replicate MFCC_FEATURES 0) :: r, ?_, ?_, ?_⟩
  · simpa [addZeroMfccWindow] using hr
  · simp [List.filterMap_cons, winArg, hw]
  · simp [List.filterMap_cons, pushArg, hp]

theorem addZeroWindows_events (model : ModelState) (n : ℕ) :
    ∀ s : StreamingState,
    ∃ d, (addZeroWindows model n s).events = s.events ++ d ∧
      d.filterMap winArg = [] ∧
      d.filterMap pushArg = List.replicate n (List.replicate MFCC_FEATURES 0) := by
  induction n with
  | zero => intro s; exact ⟨[], by simp [addZeroWindows], rfl, rfl⟩
  | succ n ih =>
      intro s
      obtain ⟨d1, hd1, hw1, hp1⟩ := addZeroMfccWindow_events model s
      obtain ⟨d2, hd2, hw2, hp2⟩ := ih (addZeroMfccWindow model s)
      refine ⟨d1 ++ d2, ?_, ?_, ?_⟩
      · rw [show addZeroWindows model (n + 1) s =
            addZeroWindows model n (addZeroMfccWindow model s) from rfl,
          hd2, hd1, List.append_assoc]
      · simp [List.filterMap_append, hw1, hw2]
      · simp [List.filterMap_append, hp1, hp2, List.replicate_succ]

theorem pushBatchOne_not_full (model : ModelState) (s : StreamingState) (x : ℚ)
    (h : (s.batch_buffer ++ [x]).length ≠ model.n_steps * model.mfcc_feats_per_timestep) :
    pushBatchOne model s x = { s with batch_buffer := s.batch_buffer ++ [x] } := by
  unfold pushBatchOne
  dsimp only
  rw [if_neg h]

theorem pushBatchOne_full (model : ModelState) (s : StreamingState) (x : ℚ)
    (h : (s.batch_buffer ++ [x]).length = model.n_steps * model.mfcc_feats_per_timestep) :
    pushBatchOne model s x =
      { processBatch model { s with batch_buffer := s.batch_buffer ++ [x] }
          (s.batch_buffer ++ [x]) model.n_steps with batch_buffer := [] } := by
  unfold pushBatchOne
  dsimp only
  rw [if_pos h]

/-- Copying a timestep that leaves the batch strictly below capacity only
appends it. -/
theorem batchFold_below (model : ModelState) (buf : List ℚ) :
    ∀ s : StreamingState,
    s.batch_buffer.length + buf.length < model.n_steps * model.mfcc_feats_per_timestep →
    processMfccWindow model s buf = { s with batch_buffer := s.batch_buffer ++ buf } := by
  induction buf with
  | nil => intro s _; simp [processMfccWindow_nil]
  | cons x rest ih =>
      intro s h
      rw [processMfccWindow_cons]
      have hne : (s.batch_buffer ++ [x]).length ≠
          model.n_steps * model.mfcc_feats_per_timestep := by
        simp only [List.length_append, List.length_singleton]
        simp only [List.length_cons] at h
        omega
      rw [pushBatchOne_not_full model s x hne]
      rw [ih]
      · simp
      · simp only [List.length_append, List.length_singleton]
        simp only [List.length_cons] at h
        omega

/-- Copying a timestep that fills the batch to exactly its capacity sends the
full batch through processBatch and resets the buffer. -/
theorem batchFold_exact (model : ModelState) (buf : List ℚ) :
    ∀ s : StreamingState,
    s.batch_buffer.length + buf.length = model.n_steps * model.mfcc_feats_per_timestep →
    buf ≠ [] →
    processMfccWindow model s buf =
      { processBatch model { s with batch_buffer := s.batch_buffer ++ buf }
          (s.batch_buffer ++ buf) model.n_steps with batch_buffer := [] } := by
  induction buf with
  | nil => intro s _ hne; exact absurd rfl hne
  | cons x rest ih =>
      intro s h _
      rcases rest with _ | ⟨y, rest'⟩
      · rw [processMfccWindow_cons]
        have heq : (s.batch_buffer ++ [x]).length =
            model.n_steps * model.mfcc_feats_per_timestep := by
          simp only [List.length_append, List.length_singleton]
          simp only [List.length_cons, List.length_nil] at h
          omega
        rw [pushBatchOne_full model s x heq, processMfccWindow_nil]
      · rw [processMfccWindow_cons]
        have hne : (s.batch_buffer ++ [x]).length ≠
            model.n_steps * model.mfcc_feats_per_timestep := by
          simp only [List.length_append, List.length_singleton]
          simp only [List.length_cons] at h
          omega
        rw [pushBatchOne_not_full model s x hne]
        rw [ih]
        · simp
        · simp only [List.length_append, List.length_singleton]
          simp only [List.length_cons] at h ⊢
          omega
        · simp

theorem pushMfccOne_not_full (model : ModelState) (s : StreamingState) (x : ℚ)
    (h : (s.mfcc_buffer ++ [x]).length ≠ model.mfcc_feats_per_timestep) :
    pushMfccOne model s x = { s with mfcc_buffer := s.mfcc_buffer ++ [x] } := by
  unfold pushMfccOne
  dsimp only
  rw [if_neg h]

theorem pushMfccOne_full (model : ModelState) (s : StreamingState) (x : ℚ)
    (h : (s.mfcc_buffer ++ [x]).length = model.mfcc_feats_per_timestep) :
    pushMfccOne model s x =
      { processMfccWindow model
          { s with mfcc_buffer := s.mfcc_buffer ++ [x]
                   events := s.events ++ [Event.timestep (s.mfcc_buffer ++ [x])] }
          (s.mfcc_buffer ++ [x])
        with mfcc_buffer :=
          (processMfccWindow model
            { s with mfcc_buffer := s.mfcc_buffer ++ [x]
                     events := s.events ++ [Event.timestep (s.mfcc_buffer ++ [x])] }
            (s.mfcc_buffer ++ [x])).mfcc_buffer.drop MFCC_FEATURES } := by
  unfold pushMfccOne
  dsimp only
  rw [if_pos h]

/-- Feature data that leaves the feature window strictly below capacity is
only appended (plus the ghost push event). -/
theorem mfccFold_below (model : ModelState) (buf : List ℚ) :
    ∀ s : StreamingState,
    s.mfcc_buffer.length + buf.length < model.mfcc_feats_per_timestep →
    buf.foldl (pushMfccOne model) s = { s with mfcc_buffer := s.mfcc_buffer ++ buf } := by
  induction buf with
  | nil => intro s _; simp
  | cons x rest ih =>
      intro s h
      rw [List.foldl_cons]
      have hne : (s.mfcc_buffer ++ [x]).length ≠ model.mfcc_feats_per_timestep := by
        simp only [List.length_append, List.length_singleton]
        simp only [List.length_cons] at h
        omega
      rw [pushMfccOne_not_full model s x hne]
      rw [ih]
      · simp
      · simp only [List.length_append, List.length_singleton]
        simp only [List.length_cons] at h
        omega

/-- Feature data that fills the feature window to exactly its capacity emits
the full window as one timestep and slides it left by MFCC_FEATURES. -/
theorem mfccFold_exact (model : ModelState) (buf : List ℚ) :
    ∀ s : StreamingState,
    s.mfcc_buffer.length + buf.length = model.mfcc_feats_per_timestep →
    buf ≠ [] →
    buf.foldl (pushMfccOne model) s =
      { processMfccWindow model
          { s with mfcc_buffer := s.mfcc_buffer ++ buf
                   events := s.events ++ [Event.timestep (s.mfcc_buffer ++ buf)] }
          (s.mfcc_buffer ++ buf)
        with mfcc_buffer := (s.mfcc_buffer ++ buf).drop MFCC_FEATURES } := by
  induction buf with
  | nil => intro s _ hne; exact absurd rfl hne
  | cons x rest ih =>
      intro s h _
      rcases rest with _ | ⟨y, rest'⟩
      · rw [List.foldl_cons]
        have heq : (s.mfcc_buffer ++ [x]).length = model.mfcc_feats_per_timestep := by
          simp only [List.length_append, List.length_singleton]
          simp only [List.length_cons, List.length_nil] at h
          omega
        rw [pushMfccOne_full model s x heq, List.foldl_nil]
        have hmf := (processMfccWindow_fields model (s.mfcc_buffer ++ [x])
          { s with mfcc_buffer := s.mfcc_buffer ++ [x]
                   events := s.events ++ [Event.timestep (s.mfcc_buffer ++ [x])] }).2.2.2
        simp only at hmf
        rw [hmf]
      · rw [List.foldl_cons]
        have hne : (s.mfcc_buffer ++ [x]).length ≠ model.mfcc_feats_per_timestep := by
          simp only [List.length_append, List.length_singleton]
          simp only [List.length_cons] at h
          omega
        rw [pushMfccOne_not_full model s x hne]
        rw [ih]
        · simp
        · simp only [List.length_append, List.length_singleton]
          simp only [List.length_cons] at h ⊢
          omega
        · simp

/-- pushMfccBuffer on data that stays strictly below one timestep. -/
theorem pushMfcc_below (model : ModelState) (s : StreamingState) (buf : List ℚ)
    (h : s.mfcc_buffer.length + buf.length < model.mfcc_feats_per_timestep) :
    pushMfccBuffer model s buf =
      { s with mfcc_buffer := s.mfcc_buffer ++ buf
               events := s.events ++ [Event.featPush buf] } := by
  unfold pushMfccBuffer
  rw [mfccFold_below model buf _ (by simpa using h)]

/-- pushMfccBuffer on data that fills the feature window exactly. -/
theorem pushMfcc_exact (model : ModelState) (s : StreamingState) (buf : List ℚ)
    (h : s.mfcc_buffer.length + buf.length = model.mfcc_feats_per_timestep)
    (hne : buf ≠ []) :
    pushMfccBuffer model s buf =
      { processMfccWindow model
          { s with mfcc_buffer := s.mfcc_buffer ++ buf
                   events := s.events ++ [Event.featPush buf, Event.timestep (s.mfcc_buffer ++ buf)] }
          (s.mfcc_buffer ++ buf)
        with mfcc_buffer := (s.mfcc_buffer ++ buf).drop MFCC_FEATURES } := by
  unfold pushMfccBuffer
  rw [mfccFold_exact model buf _ (by simpa using h) hne]
  simp

theorem feed_append (model : ModelState) (s : StreamingState) (a b : List ℤ) :
    feedAudioContent model s (a ++ b) =
      feedAudioContent model (feedAudioContent model s a) b := by
  induction a generalizing s with
  | nil => rfl
  | cons x rest ih => simp [feedAudioContent, ih]

/-- Feeding samples that leave the window strictly below capacity only
buffers their pre-emphasized values and updates last_sample. -/
theorem feed_below (model : ModelState) (xs : List ℤ) (s : StreamingState)
    (h : s.audio_buffer.length + xs.length < AUDIO_WIN_LEN_SAMPLES) :
    feedAudioContent model s xs =
      { s with audio_buffer := s.audio_buffer ++ preemphasize s.last_sample xs
               last_sample := lastSampleAfter s.last_sample xs } := by
  induction xs generalizing s with
  | nil => simp [feedAudioContent, lastSampleAfter, preemphasize]
  | cons x rest ih =>
      rw [feedAudioContent]
      have hlt : (pushSample s x).audio_buffer.length ≠ AUDIO_WIN_LEN_SAMPLES := by
        simp only [pushSample, List.length_append, List.length_singleton]
        simp only [List.length_cons] at h
        omega
      rw [checkFullWindow, if_neg hlt]
      rw [ih]
      · simp [pushSample, preemphasize, lastSampleAfter]
      · simp only [pushSample, List.length_append, List.length_singleton]
        simp only [List.length_cons] at h
        omega

/-- Feeding samples that fill the window to exactly its capacity processes
that one window and shifts it by one step. -/
theorem feed_exact (model : ModelState) (xs : List ℤ) (s : StreamingState)
    (h : s.audio_buffer.length + xs.length = AUDIO_WIN_LEN_SAMPLES)
    (hne : xs ≠ []) :
    feedAudioContent model s xs =
      { processAudioWindow model
          { s with audio_buffer := s.audio_buffer ++ preemphasize s.last_sample xs
                   last_sample := lastSampleAfter s.last_sample xs }
          (s.audio_buffer ++ preemphasize s.last_sample xs)
        with audio_buffer := (s.audio_buffer ++ preemphasize s.last_sample xs).drop AUDIO_WIN_STEP_SAMPLES } := by
  induction xs generalizing s with
  | nil => exact absurd rfl hne
  | cons x rest ih =>
      rcases rest with _ | ⟨y, rest'⟩
      · rw [feedAudioContent]
        have heq : (pushSample s x).audio_buffer.length = AUDIO_WIN_LEN_SAMPLES := by
          simp only [pushSample, List.length_append, List.length_singleton]
          simp only [List.length_cons, List.length_nil] at h
          omega
        rw [checkFullWindow, if_pos heq]
        rw [feedAudioContent]
        have hfa := (processAudioWindow_fields model (pushSample s x)
          (pushSample s x).audio_buffer).1
        simp only [pushSample] at hfa
        simp [pushSample, preemphasize, lastSampleAfter, hfa]
      · rw [feedAudioContent]
        have hlt : (pushSample s x).audio_buffer.length ≠ AUDIO_WIN_LEN_SAMPLES := by
          simp only [pushSample, List.length_append, List.length_singleton]
          simp only [List.length_cons] at h
          omega
        rw [checkFullWindow, if_neg hlt]
        rw [ih]
        · simp [pushSample, preemphasize, lastSampleAfter]
        · simp only [pushSample, List.length_append, List.length_singleton]
          simp only [List.length_cons] at h ⊢
          omega
        · simp

theorem checkFullWindow_last (model : ModelState) (s : StreamingState) :
    (checkFullWindow model s).last_sample = s.last_sample := by
  unfold checkFullWindow
  dsimp only
  by_cases h : s.audio_buffer.length = AUDIO_WIN_LEN_SAMPLES
  · rw [if_pos h]
    exact (processAudioWindow_fields model s s.audio_buffer).2.1
  · rw [if_neg h]

theorem checkFullWindow_of_not_full (model : ModelState) (s : StreamingState)
    (h : s.audio_buffer.length ≠ AUDIO_WIN_LEN_SAMPLES) :
    checkFullWindow model s = s := by
  unfold checkFullWindow
  dsimp only
  rw [if_neg h]

theorem feed_last (model : ModelState) (xs : List ℤ) :
    ∀ s : StreamingState,
    (feedAudioContent model s xs).last_sample = lastSampleAfter s.last_sample xs := by
  induction xs with
  | nil => intro s; rfl
  | cons x rest ih =>
      intro s
      rw [feedAudioContent, ih, checkFullWindow_last]
      rfl

/-- A concrete well-formed model used to instantiate the scenario claims:
n_steps = 2, n_context = 1 (hence 78 features per timestep), a 2-class
alphabet, a feature extractor returning one zero frame per window, an
inference engine that always succeeds returning n_frames * num_classes
zeros, and a decoder returning the empty transcript exactly on empty
input. -/
def testModel : ModelState :=
  { n_steps := 2
    mfcc_feats_per_timestep := 78
    n_context := 1
    alphabet_size := 1
    mfccFn := fun _ => List.replicate MFCC_FEATURES 0
    inferFn := fun _ n => some (List.replicate (n * 2) 0)
    decodeFn := fun inputs => if inputs.isEmpty then "" else "x" }

theorem testModel_wellFormed : testModel.wellFormed :=
  ⟨rfl, by decide, fun buf => by simp [testModel]⟩

/-- C1.  Chunking invariance: feeding a sample sequence in one
feedAudioContent call and feeding any partition of it into consecutive
chunks in order produce identical StreamingStates, so an equal subsequent
finishStream yields bit-identical accumulated logits. -/
theorem c1_chunking_invariance (model : ModelState) (s : StreamingState)
    (chunks : List (List ℤ)) :
    chunks.foldl (feedAudioContent model) s = feedAudioContent model s chunks.flatten ∧
    (finishStream model (chunks.foldl (feedAudioContent model) s)).1.accumulated_logits =
      (finishStream model (feedAudioContent model s chunks.flatten)).1.accumulated_logits := by
  have h : ∀ (cs : List (List ℤ)) (t : StreamingState),
      cs.foldl (feedAudioContent model) t = feedAudioContent model t cs.flatten := by
    intro cs
    induction cs with
    | nil => intro t; rfl
    | cons c rest ih =>
        intro t
        rw [List.foldl_cons, List.flatten_cons, feed_append, ih]
  exact ⟨h chunks s, by rw [h chunks s]⟩

/-- C9.  Pre-emphasis: a sample x fed while the raw window is not full
appends exactly x - 0.97 * lastSample to the raw window and then sets
lastSample to x; lastSample evolves only with the raw samples and so
persists across feed calls. -/
theorem c9_preemphasis (model : ModelState) (s : StreamingState) (x : ℤ)
    (xs ys : List ℤ) (h : s.audio_buffer.length + 1 < AUDIO_WIN_LEN_SAMPLES) :
    feedAudioContent model s (x :: xs) =
      feedAudioContent model
        { s with audio_buffer :=
            s.audio_buffer ++ [(x : ℚ) - PREEMPHASIS_COEFF * s.last_sample]
                 last_sample := (x : ℚ) } xs ∧
    (feedAudioContent model s ys).last_sample = lastSampleAfter s.last_sample ys := by
  constructor
  · rw [feedAudioContent]
    have hne : (pushSample s x).audio_buffer.length ≠ AUDIO_WIN_LEN_SAMPLES := by
      simp only [pushSample, List.length_append, List.length_singleton]
      omega
    rw [checkFullWindow_of_not_full model _ hne]
    rfl
  · exact feed_last model ys s

/-- C9 witness. -/
theorem c9_preemphasis_witness :
    (DS_SetupStream testModel).audio_buffer.length + 1 < AUDIO_WIN_LEN_SAMPLES ∧
    (feedAudioContent testModel (DS_SetupStream testModel) ([5] : List ℤ) =
      feedAudioContent testModel
        { DS_SetupStream testModel with
            audio_buffer := (DS_SetupStream testModel).audio_buffer ++
              [((5 : ℤ) : ℚ) - PREEMPHASIS_COEFF * (DS_SetupStream testModel).last_sample]
            last_sample := ((5 : ℤ) : ℚ) } [] ∧
    (feedAudioContent testModel (DS_SetupStream testModel) ([3] : List ℤ)).last_sample =
      lastSampleAfter (DS_SetupStream testModel).last_sample [3]) :=
  ⟨by decide,
   c9_preemphasis testModel (DS_SetupStream testModel) 5 [] [3] (by decide)⟩

theorem not_decide_mod (n : ℕ) :
    (!decide (n % 2 = 1)) = decide ((n + 1) % 2 = 1) := by
  rw [← decide_not, decide_eq_decide]
  omega

theorem not_decide_mod_zero (n : ℕ) :
    (!decide (n % 2 = 1)) = decide (n % 2 = 0) := by
  rw [← decide_not, decide_eq_decide]
  omega

theorem altPattern_succ (n : ℕ) :
    altPattern (n + 1) = altPattern n ++ [decide (n % 2 = 0)] := by
  simp [altPattern, List.range_succ]

theorem processAudioWindow_wins (model : ModelState) (s : StreamingState)
    (buf : List ℚ) :
    (processAudioWindow model s buf).events.filterMap winArg =
      s.events.filterMap winArg ++ [!s.skip_next_mfcc] := by
  obtain ⟨r, hr, hw⟩ := processAudioWindow_events model s buf
  rw [hr]
  simp [List.filterMap_append, List.filterMap_cons, winArg, hw]

theorem decInv_feed (model : ModelState) (xs : List ℤ) :
    ∀ s : StreamingState,
    s.skip_next_mfcc = decide ((s.events.filterMap winArg).length % 2 = 1) →
    s.events.filterMap winArg = altPattern (s.events.filterMap winArg).length →
    (feedAudioContent model s xs).skip_next_mfcc =
      decide (((feedAudioContent model s xs).events.filterMap winArg).length % 2 = 1) ∧
    (feedAudioContent model s xs).events.filterMap winArg =
      altPattern ((feedAudioContent model s xs).events.filterMap winArg).length := by
  induction xs with
  | nil => intro s h1 h2; exact ⟨h1, h2⟩
  | cons x rest ih =>
      intro s h1 h2
      rw [feedAudioContent]
      by_cases hfull : (pushSample s x).audio_buffer.length = AUDIO_WIN_LEN_SAMPLES
      · have hstep : (checkFullWindow model (pushSample s x)).events.filterMap winArg =
            s.events.filterMap winArg ++ [!s.skip_next_mfcc] := by
          unfold checkFullWindow
          dsimp only
          rw [if_pos hfull]
          have := processAudioWindow_wins model (pushSample s x)
            (pushSample s x).audio_buffer
          simpa [pushSample] using this
        have hskip : (checkFullWindow model (pushSample s x)).skip_next_mfcc =
            !s.skip_next_mfcc := by
          unfold checkFullWindow
          dsimp only
          rw [if_pos hfull]
          have := (processAudioWindow_fields model (pushSample s x)
            (pushSample s x).audio_buffer).2.2
          simpa [pushSample] using this
        apply ih
        · rw [hskip, hstep, h1]
          simp only [List.length_append, List.length_singleton]
          exact not_decide_mod _
        · rw [hstep, h1, h2]
          simp only [List.length_append, List.length_singleton]
          rw [altPattern_succ]
          congr 1
          · simp [altPattern]
          · congr 1
            exact not_decide_mod_zero _
      · rw [checkFullWindow_of_not_full model _ hfull]
        apply ih
        · simpa [pushSample] using h1
        · simpa [pushSample] using h2

/-- C10.  Initial decimation phase: on any stream built by DS_SetupStream
followed by arbitrary feedAudioContent calls, the completed raw windows
alternate starting with an emitting one: the 1st, 3rd, 5th, ... windows
produce a feature vector and the 2nd, 4th, ... are skipped; in particular
the very first completed window always emits. -/
theorem c10_initial_decimation (model : ModelState) (chunks : List (List ℤ)) :
    (chunks.foldl (feedAudioContent model) (DS_SetupStream model)).events.filterMap winArg =
      altPattern ((chunks.foldl (feedAudioContent model)
        (DS_SetupStream model)).events.filterMap winArg).length := by
  have main : ∀ (cs : List (List ℤ)) (s : StreamingState),
      s.skip_next_mfcc = decide ((s.events.filterMap winArg).length % 2 = 1) →
      s.events.filterMap winArg = altPattern (s.events.filterMap winArg).length →
      (cs.foldl (feedAudioContent model) s).skip_next_mfcc =
        decide (((cs.foldl (feedAudioContent model) s).events.filterMap winArg).length % 2 = 1) ∧
      (cs.foldl (feedAudioContent model) s).events.filterMap winArg =
        altPattern (((cs.foldl (feedAudioContent model) s)).events.filterMap winArg).length := by
    intro cs
    induction cs with
    | nil => intro s h1 h2; exact ⟨h1, h2⟩
    | cons c rest ih =>
        intro s h1 h2
        rw [List.foldl_cons]
        obtain ⟨g1, g2⟩ := decInv_feed model c s h1 h2
        exact ih (feedAudioContent model s c) g1 g2
  exact (main chunks (DS_SetupStream model) (by simp [DS_SetupStream])
    (by simp [DS_SetupStream, altPattern])).2

/-- C8.  FeatureWindower sliding: a pushed feature vector of length
featureDim is appended to the feature window; when the window reaches
featuresPerTimestep, the entire buffer is emitted as one timestep to the
batch accumulator and then slid left by exactly featureDim elements,
retaining the newest featuresPerTimestep - featureDim elements in order. -/
theorem c8_feature_windower (model : ModelState) (s : StreamingState)
    (v : List ℚ) (hv : v.length = MFCC_FEATURES) :
    (s.mfcc_buffer.length + v.length < model.mfcc_feats_per_timestep →
      pushMfccBuffer model s v =
        { s with mfcc_buffer := s.mfcc_buffer ++ v
                 events := s.events ++ [Event.featPush v] }) ∧
    (s.mfcc_buffer.length + v.length = model.mfcc_feats_per_timestep →
      ((pushMfccBuffer model s v).mfcc_buffer = (s.mfcc_buffer ++ v).drop MFCC_FEATURES ∧
       (∃ r, (pushMfccBuffer model s v).events =
          s.events ++ Event.featPush v :: Event.timestep (s.mfcc_buffer ++ v) :: r) ∧
       (s.batch_buffer.length + model.mfcc_feats_per_timestep <
          model.n_steps * model.mfcc_feats_per_timestep →
        (pushMfccBuffer model s v).batch_buffer =
          s.batch_buffer ++ (s.mfcc_buffer ++ v)))) := by
  have hvne : v ≠ [] := by
    intro hnil
    rw [hnil] at hv
    simp [MFCC_FEATURES] at hv
  constructor
  · intro hlt
    exact pushMfcc_below model s v hlt
  · intro heq
    rw [pushMfcc_exact model s v heq hvne]
    refine ⟨rfl, ?_, ?_⟩
    · obtain ⟨d, hd, _, _, _⟩ := processMfccWindow_events model (s.mfcc_buffer ++ v)
        { s with mfcc_buffer := s.mfcc_buffer ++ v
                 events := s.events ++
                   [Event.featPush v, Event.timestep (s.mfcc_buffer ++ v)] }
      refine ⟨d, ?_⟩
      simp only at hd
      rw [hd]
      simp
    · intro hb
      rw [batchFold_below model (s.mfcc_buffer ++ v)
        { s with mfcc_buffer := s.mfcc_buffer ++ v, events := s.events ++ [Event.featPush v, Event.timestep (s.mfcc_buffer ++ v)] }
        (by simpa [List.length_append, heq] using hb)]

/-- C8 witness: pushing one 26-wide feature vector onto the freshly set-up
feature window (26 zeros of left context, capacity 78) appends it. -/
theorem c8_feature_windower_witness :
    pushMfccBuffer testModel (DS_SetupStream testModel)
        (List.replicate MFCC_FEATURES 0) =
      { DS_SetupStream testModel with
          mfcc_buffer := (DS_SetupStream testModel).mfcc_buffer ++
            List.replicate MFCC_FEATURES 0
          events := (DS_SetupStream testModel).events ++
            [Event.featPush (List.replicate MFCC_FEATURES 0)] } :=
  (c8_feature_windower testModel (DS_SetupStream testModel)
    (List.replicate MFCC_FEATURES 0) (by simp)).1 (by decide)

/-- C3.  Context padding at finalize: for every model and stream state,
finishStream first flushes exactly one raw window, then pushes exactly
n_context zero-valued feature vectors of length MFCC_FEATURES into the
feature windower, and only after that performs the final partial-batch
flush (at most one further inference call and nothing else). -/
theorem c3_context_padding (model : ModelState) (s : StreamingState) :
    ∃ e1 e2 e3,
      (finishStream model s).1.events = s.events ++ e1 ++ e2 ++ e3 ∧
      (e1.filterMap winArg).length = 1 ∧
      e2.filterMap winArg = [] ∧
      e2.filterMap pushArg =
        List.replicate model.n_context (List.replicate MFCC_FEATURES 0) ∧
      (e3 = [] ∨ ∃ k b, e3 = [Event.inferCall k b]) := by
  obtain ⟨r1, hr1, hw1⟩ := processAudioWindow_events model s s.audio_buffer
  obtain ⟨d2, hd2, hw2, hp2⟩ := addZeroWindows_events model model.n_context
    (processAudioWindow model s s.audio_buffer)
  unfold finishStream
  dsimp only
  by_cases hb : 0 < (addZeroWindows model model.n_context
      (processAudioWindow model s s.audio_buffer)).batch_buffer.length
  · rw [if_pos hb]
    refine ⟨Event.audioWindow (!s.skip_next_mfcc) :: r1, d2,
      [Event.inferCall
        ((addZeroWindows model model.n_context
            (processAudioWindow model s s.audio_buffer)).batch_buffer.length /
          model.mfcc_feats_per_timestep)
        (ModelState.infer model
          (addZeroWindows model model.n_context
            (processAudioWindow model s s.audio_buffer)).batch_buffer
          ((addZeroWindows model model.n_context
              (processAudioWindow model s s.audio_buffer)).batch_buffer.length /
            model.mfcc_feats_per_timestep)
          (addZeroWindows model model.n_context
            (processAudioWindow model s s.audio_buffer)).accumulated_logits).2],
      ?_, ?_, hw2, hp2, Or.inr ⟨_, _, rfl⟩⟩
    · rw [processBatch_events, hd2, hr1]
    · simp [List.filterMap_cons, winArg, hw1]
  · rw [if_neg hb]
    refine ⟨Event.audioWindow (!s.skip_next_mfcc) :: r1, d2, [],
      ?_, ?_, hw2, hp2, Or.inl rfl⟩
    · rw [hd2, hr1]
      simp [List.append_assoc]
    · simp [List.filterMap_cons, winArg, hw1]

/-- C5.  Fail-open on inference failure: a batch whose session call fails
leaves accumulated_logits unchanged (grows by zero elements); a successful
batch appends its n_frames * num_classes logits normally, also directly
after a failed one; and finishStream always returns the decode of whatever
logits accumulated rather than an error. -/
theorem c5_fail_open (model : ModelState) (s : StreamingState)
    (buf b2 : List ℚ) (n n2 : ℕ) :
    (model.inferFn (padInput model buf n) n = none →
      (processBatch model s buf n).accumulated_logits = s.accumulated_logits) ∧
    (∀ out, model.inferFn (padInput model buf n) n = some out →
      (processBatch model s buf n).accumulated_logits =
        s.accumulated_logits ++ out.take (n * BATCH_SIZE * model.num_classes)) ∧
    (∀ out2, model.inferFn (padInput model buf n) n = none →
      model.inferFn (padInput model b2 n2) n2 = some out2 →
      (processBatch model (processBatch model s buf n) b2 n2).accumulated_logits =
        s.accumulated_logits ++ out2.take (n2 * BATCH_SIZE * model.num_classes)) ∧
    (finishStream model s).2 = model.decode (finishStream model s).1.accumulated_logits := by
  refine ⟨?_, ?_, ?_, rfl⟩
  · intro hn
    simp [processBatch, ModelState.infer, hn]
  · intro out hs
    simp [processBatch, ModelState.infer, hs]
  · intro out2 hn hs
    simp [processBatch, ModelState.infer, hn, hs]

/-- A model whose inference engine fails exactly on single-frame batches,
used to exercise the fail-open policy with a failure followed by a
success. -/
def mixedModel : ModelState :=
  { testModel with inferFn := fun _ n =>
      if n = 1 then none else some (List.replicate (n * 2) 0) }

/-- C5 witness: a failed 1-frame batch appends nothing and a following
successful 2-frame batch still appends its logits. -/
theorem c5_fail_open_witness :
    (processBatch mixedModel
        (processBatch mixedModel (DS_SetupStream mixedModel) [] 1) [] 2).accumulated_logits =
      (DS_SetupStream mixedModel).accumulated_logits ++
        (List.replicate (2 * 2) (0 : ℚ)).take (2 * BATCH_SIZE * mixedModel.num_classes) :=
  (c5_fail_open mixedModel (DS_SetupStream mixedModel) [] [] 1 2).2.2.1
    (List.replicate (2 * 2) 0) (by rfl) (by rfl)

theorem processAudioWindow_audio (model : ModelState) (s : StreamingState)
    (buf : List ℚ) :
    (processAudioWindow model s buf).audio_buffer = s.audio_buffer :=
  (processAudioWindow_fields model s buf).1

theorem processAudioWindow_skip (model : ModelState) (s : StreamingState)
    (buf : List ℚ) :
    (processAudioWindow model s buf).skip_next_mfcc = !s.skip_next_mfcc :=
  (processAudioWindow_fields model s buf).2.2

/-- Feeding samples that complete exactly one raw window records one more
processed window (emitted iff the decimation toggle was on "emit"), leaves
windowLen - windowStep samples in the raw buffer, and flips the toggle. -/
theorem window_step (model : ModelState) (s : StreamingState) (zs : List ℤ)
    (h : s.audio_buffer.length + zs.length = AUDIO_WIN_LEN_SAMPLES)
    (hne : zs ≠ []) :
    (feedAudioContent model s zs).events.filterMap winArg =
      s.events.filterMap winArg ++ [!s.skip_next_mfcc] ∧
    (feedAudioContent model s zs).audio_buffer.length =
      AUDIO_WIN_LEN_SAMPLES - AUDIO_WIN_STEP_SAMPLES ∧
    (feedAudioContent model s zs).skip_next_mfcc = !s.skip_next_mfcc := by
  rw [feed_exact model zs s h hne]
  refine ⟨?_, ?_, ?_⟩
  · simp [processAudioWindow_wins]
  · simp only [List.length_drop, List.length_append, length_preemphasize, h]
  · simp [processAudioWindow_skip]

/-- C2 (amended).  Window arithmetic with decimation: from a freshly set-up
stream, feeding exactly windowLenSamples samples processes exactly one raw
window (which, the toggle starting on "emit", produces a feature vector)
and retains windowLenSamples - windowStepSamples samples; after
windowLenSamples + windowStepSamples samples, exactly two windows have been
processed and only the FIRST of them yields a feature vector — the second
is skipped by the decimation toggle. -/
theorem c2_window_arithmetic (model : ModelState) (xs ys : List ℤ)
    (hx : xs.length = AUDIO_WIN_LEN_SAMPLES)
    (hy : ys.length = AUDIO_WIN_LEN_SAMPLES + AUDIO_WIN_STEP_SAMPLES) :
    (feedAudioContent model (DS_SetupStream model) xs).events.filterMap winArg =
      [true] ∧
    (feedAudioContent model (DS_SetupStream model) xs).audio_buffer.length =
      AUDIO_WIN_LEN_SAMPLES - AUDIO_WIN_STEP_SAMPLES ∧
    (feedAudioContent model (DS_SetupStream model) ys).events.filterMap winArg =
      [true, false] := by
  have hxne : xs ≠ [] := by
    intro h0
    rw [h0] at hx
    exact absurd hx (by decide)
  obtain ⟨he1, ha1, _⟩ := window_step model (DS_SetupStream model) xs
    (by simpa [DS_SetupStream] using hx) hxne
  refine ⟨?_, ha1, ?_⟩
  · rw [he1]
    simp [DS_SetupStream]
  · have hlt : (ys.take AUDIO_WIN_LEN_SAMPLES).length = AUDIO_WIN_LEN_SAMPLES := by
      rw [List.length_take, hy]
      exact Nat.min_eq_left (Nat.le_add_right _ _)
    have hdrop : (ys.drop AUDIO_WIN_LEN_SAMPLES).length = AUDIO_WIN_STEP_SAMPLES := by
      rw [List.length_drop, hy]
      omega
    obtain ⟨he2, ha2, hs2⟩ := window_step model (DS_SetupStream model)
      (ys.take AUDIO_WIN_LEN_SAMPLES)
      (by simpa [DS_SetupStream] using hlt)
      (by intro h0; rw [h0] at hlt; exact absurd hlt (by decide))
    obtain ⟨he3, _, _⟩ := window_step model
      (feedAudioContent model (DS_SetupStream model) (ys.take AUDIO_WIN_LEN_SAMPLES))
      (ys.drop AUDIO_WIN_LEN_SAMPLES)
      (by rw [ha2, hdrop]; decide)
      (by intro h0; rw [h0] at hdrop; exact absurd hdrop (by decide))
    rw [← List.take_append_drop AUDIO_WIN_LEN_SAMPLES ys, feed_append, he3, he2, hs2]
    simp [DS_SetupStream]

set_option maxRecDepth 40000 in
/-- C2 counterexample: feeding 560 = windowLen + windowStep zero samples to
a fresh stream on the concrete test model processes two raw windows of
which the FIRST emits a feature vector and the second does not — refuting
the claim that only the second yields a feature vector. -/
theorem c2_window_arithmetic_counterexample :
    (feedAudioContent testModel (DS_SetupStream testModel)
        (List.replicate 560 0)).events.filterMap winArg = [true, false] ∧
    (feedAudioContent testModel (DS_SetupStream testModel)
        (List.replicate 560 0)).events.filterMap winArg ≠ [false, true] := by
  have h560 : (List.replicate 560 (0 : ℤ)) =
      List.replicate 400 0 ++ List.replicate 160 0 := by
    rw [← List.replicate_add]
  obtain ⟨he2, ha2, hs2⟩ := window_step testModel (DS_SetupStream testModel)
    (List.replicate 400 0) (by decide) (by decide)
  obtain ⟨he3, _, _⟩ := window_step testModel
    (feedAudioContent testModel (DS_SetupStream testModel) (List.replicate 400 0))
    (List.replicate 160 0)
    (by rw [List.length_replicate, ha2]; decide)
    (by decide)
  constructor
  · rw [h560, feed_append, he3, he2, hs2]
    simp [DS_SetupStream]
  · rw [h560, feed_append, he3, he2, hs2]
    simp [DS_SetupStream]

set_option maxRecDepth 40000 in
/-- C2 witness. -/
theorem c2_window_arithmetic_witness :
    (List.replicate 400 (0 : ℤ)).length = AUDIO_WIN_LEN_SAMPLES ∧
    ((feedAudioContent testModel (DS_SetupStream testModel)
        (List.replicate 400 0)).events.filterMap winArg = [true] ∧
     (feedAudioContent testModel (DS_SetupStream testModel)
        (List.replicate 400 0)).audio_buffer.length =
       AUDIO_WIN_LEN_SAMPLES - AUDIO_WIN_STEP_SAMPLES ∧
     (feedAudioContent testModel (DS_SetupStream testModel)
        (List.replicate 560 0)).events.filterMap winArg = [true, false]) :=
  ⟨by decide,
   c2_window_arithmetic testModel (List.replicate 400 0) (List.replicate 560 0)
     (by decide) (by decide)⟩

/-- The strengthened buffer invariant maintained by every operation: the
feature window always has room for one more feature vector, and the batch
window always has room for one more timestep. -/
def BufInv (model : ModelState) (s : StreamingState) : Prop :=
  MFCC_FEATURES ∣ s.mfcc_buffer.length ∧
  s.mfcc_buffer.length + MFCC_FEATURES ≤ model.mfcc_feats_per_timestep ∧
  model.mfcc_feats_per_timestep ∣ s.batch_buffer.length ∧
  s.batch_buffer.length + model.mfcc_feats_per_timestep ≤
    model.n_steps * model.mfcc_feats_per_timestep

theorem fpt_pos (model : ModelState) (hwf : model.wellFormed) :
    0 < model.mfcc_feats_per_timestep := by
  rw [hwf.1]
  exact Nat.mul_pos (by decide) (by omega)

theorem processMfccWindow_batch_inv (model : ModelState) (hwf : model.wellFormed)
    (s : StreamingState) (full : List ℚ)
    (hfl : full.length = model.mfcc_feats_per_timestep)
    (h3 : model.mfcc_feats_per_timestep ∣ s.batch_buffer.length)
    (h4 : s.batch_buffer.length + model.mfcc_feats_per_timestep ≤
      model.n_steps * model.mfcc_feats_per_timestep) :
    model.mfcc_feats_per_timestep ∣ (processMfccWindow model s full).batch_buffer.length ∧
    (processMfccWindow model s full).batch_buffer.length + model.mfcc_feats_per_timestep ≤
      model.n_steps * model.mfcc_feats_per_timestep := by
  have hpos := fpt_pos model hwf
  have hne : full ≠ [] := by
    intro h0
    rw [h0] at hfl
    simp at hfl
    omega
  rcases Nat.lt_or_ge (s.batch_buffer.length + full.length)
      (model.n_steps * model.mfcc_feats_per_timestep) with hlt | hge
  · rw [batchFold_below model full s hlt]
    obtain ⟨a, ha⟩ := id h3
    constructor
    · simp only [List.length_append, hfl]
      exact Dvd.dvd.add h3 dvd_rfl
    · simp only [List.length_append, hfl]
      rw [hfl] at hlt
      have ha1 : model.mfcc_feats_per_timestep * (a + 1) <
          model.n_steps * model.mfcc_feats_per_timestep := by
        rw [Nat.mul_add, Nat.mul_one, ← ha]
        exact hlt
      rw [Nat.mul_comm model.n_steps model.mfcc_feats_per_timestep] at ha1
      have ha2 : a + 1 < model.n_steps := Nat.lt_of_mul_lt_mul_left ha1
      have ha3 : model.mfcc_feats_per_timestep * (a + 2) ≤
          model.mfcc_feats_per_timestep * model.n_steps :=
        Nat.mul_le_mul_left _ (by omega)
      calc s.batch_buffer.length + model.mfcc_feats_per_timestep +
            model.mfcc_feats_per_timestep
          = model.mfcc_feats_per_timestep * (a + 2) := by rw [ha]; ring
        _ ≤ model.mfcc_feats_per_timestep * model.n_steps := ha3
        _ = model.n_steps * model.mfcc_feats_per_timestep := Nat.mul_comm _ _
  · have heq : s.batch_buffer.length + full.length =
        model.n_steps * model.mfcc_feats_per_timestep := by
      rw [hfl]
      rw [hfl] at hge
      omega
    rw [batchFold_exact model full s heq hne]
    constructor
    · simp
    · simp only [List.length_nil, Nat.zero_add]
      exact Nat.le_mul_of_pos_left _ (by have := hwf.2.1; omega)

theorem push26_inv (model : ModelState) (hwf : model.wellFormed)
    (s : StreamingState) (v : List ℚ) (hv : v.length = MFCC_FEATURES)
    (hI : BufInv model s) : BufInv model (pushMfccBuffer model s v) := by
  obtain ⟨h1, h2, h3, h4⟩ := hI
  have hvne : v ≠ [] := by
    intro h0
    rw [h0] at hv
    exact absurd hv (by decide)
  rcases Nat.lt_or_ge (s.mfcc_buffer.length + v.length)
      model.mfcc_feats_per_timestep with hlt | hge
  · rw [pushMfcc_below model s v hlt]
    refine ⟨?_, ?_, h3, h4⟩
    · simp only [List.length_append, hv]
      exact Dvd.dvd.add h1 dvd_rfl
    · simp only [List.length_append, hv]
      obtain ⟨a, ha⟩ := h1
      obtain ⟨k, hk⟩ : (MFCC_FEATURES : ℕ) ∣ model.mfcc_feats_per_timestep :=
        ⟨2 * model.n_context + 1, hwf.1⟩
      rw [hv] at hlt
      rw [ha, hk] at hlt ⊢
      simp only [MFCC_FEATURES] at hlt ⊢
      omega
  · have heq : s.mfcc_buffer.length + v.length = model.mfcc_feats_per_timestep := by
      rw [hv]
      rw [hv] at hge
      omega
    rw [pushMfcc_exact model s v heq hvne]
    have hfull : (s.mfcc_buffer ++ v).length = model.mfcc_feats_per_timestep := by
      simp only [List.length_append]
      exact heq
    obtain ⟨hb1, hb2⟩ := processMfccWindow_batch_inv model hwf
      { s with mfcc_buffer := s.mfcc_buffer ++ v
               events := s.events ++
                 [Event.featPush v, Event.timestep (s.mfcc_buffer ++ v)] }
      (s.mfcc_buffer ++ v) hfull h3 h4
    refine ⟨?_, ?_, hb1, hb2⟩
    · simp only [List.length_drop, hfull]
      obtain ⟨k, hk⟩ : (MFCC_FEATURES : ℕ) ∣ model.mfcc_feats_per_timestep :=
        ⟨2 * model.n_context + 1, hwf.1⟩
      exact ⟨k - 1, by rw [hk]; simp [MFCC_FEATURES]; omega⟩
    · simp only [List.length_drop, hfull]
      have := fpt_pos model hwf
      omega

theorem processAudioWindow_inv (model : ModelState) (hwf : model.wellFormed)
    (s : StreamingState) (buf : List ℚ) (hI : BufInv model s) :
    BufInv model (processAudioWindow model s buf) := by
  unfold processAudioWindow
  dsimp only
  cases hsk : s.skip_next_mfcc with
  | false =>
      simp only [hsk, Bool.not_false, if_true]
      exact push26_inv model hwf
        { s with skip_next_mfcc := true
                 events := s.events ++ [Event.audioWindow true] }
        ((model.mfccFn buf).take (1 * MFCC_FEATURES))
        (by rw [List.length_take, hwf.2.2 buf]; simp) hI
  | true =>
      simp only [hsk, Bool.not_true, Bool.false_eq_true, if_false]
      exact hI

theorem checkFullWindow_inv (model : ModelState) (hwf : model.wellFormed)
    (s : StreamingState) (hI : BufInv model s) :
    BufInv model (checkFullWindow model s) := by
  unfold checkFullWindow
  dsimp only
  by_cases h : s.audio_buffer.length = AUDIO_WIN_LEN_SAMPLES
  · rw [if_pos h]
    exact processAudioWindow_inv model hwf s s.audio_buffer hI
  · rw [if_neg h]
    exact hI

theorem feed_inv (model : ModelState) (hwf : model.wellFormed) (xs : List ℤ) :
    ∀ s : StreamingState, BufInv model s →
    BufInv model (feedAudioContent model s xs) := by
  induction xs with
  | nil => intro s hI; exact hI
  | cons x rest ih =>
      intro s hI
      rw [feedAudioContent]
      exact ih _ (checkFullWindow_inv model hwf _ hI)

theorem addZeroWindows_inv (model : ModelState) (hwf : model.wellFormed) (n : ℕ) :
    ∀ s : StreamingState, BufInv model s →
    BufInv model (addZeroWindows model n s) := by
  induction n with
  | zero => intro s hI; exact hI
  | succ n ih =>
      intro s hI
      exact ih _ (push26_inv model hwf s (List.replicate MFCC_FEATURES 0)
        (by simp) hI)

theorem finishStream_inv (model : ModelState) (hwf : model.wellFormed)
    (s : StreamingState) (hI : BufInv model s) :
    BufInv model (finishStream model s).1 := by
  unfold finishStream
  dsimp only
  have h2 : BufInv model (addZeroWindows model model.n_context
      (processAudioWindow model s s.audio_buffer)) :=
    addZeroWindows_inv model hwf _ _
      (processAudioWindow_inv model hwf s s.audio_buffer hI)
  by_cases hb : 0 < (addZeroWindows model model.n_context
      (processAudioWindow model s s.audio_buffer)).batch_buffer.length
  · rw [if_pos hb]
    obtain ⟨g1, g2, g3, g4⟩ := h2
    exact ⟨g1, g2, g3, g4⟩
  · rw [if_neg hb]
    exact h2

theorem setup_inv (model : ModelState) (hwf : model.wellFormed) :
    BufInv model (DS_SetupStream model) := by
  refine ⟨?_, ?_, ?_, ?_⟩
  · simp [DS_SetupStream]
  · simp only [DS_SetupStream, List.length_replicate]
    rw [hwf.1]
    simp only [MFCC_FEATURES]
    omega
  · simp [DS_SetupStream]
  · simp only [DS_SetupStream, List.length_nil, Nat.zero_add]
    exact Nat.le_mul_of_pos_left _ (by have := hwf.2.1; omega)

theorem reachable_inv (model : ModelState) (hwf : model.wellFormed)
    (s : StreamingState) (hr : Reachable model s) : BufInv model s := by
  induction hr with
  | setup => exact setup_inv model hwf
  | feed xs _ ih => exact feed_inv model hwf xs _ ih
  | finish _ ih => exact finishStream_inv model hwf _ ih

/-- C7.  Buffer size invariants: on every reachable stream state of a
well-formed model, the feature window length is a multiple of MFCC_FEATURES
and at most mfcc_feats_per_timestep, and the batch window length is a
multiple of mfcc_feats_per_timestep and at most
n_steps * mfcc_feats_per_timestep; at stream setup the feature window holds
exactly MFCC_FEATURES * n_context zeros and all other buffers are empty. -/
theorem c7_buffer_invariants (model : ModelState) (s : StreamingState)
    (hwf : model.wellFormed) (hr : Reachable model s) :
    (s.mfcc_buffer.length % MFCC_FEATURES = 0 ∧
     s.mfcc_buffer.length ≤ model.mfcc_feats_per_timestep ∧
     s.batch_buffer.length % model.mfcc_feats_per_timestep = 0 ∧
     s.batch_buffer.length ≤ model.n_steps * model.mfcc_feats_per_timestep) ∧
    ((DS_SetupStream model).mfcc_buffer =
       List.replicate (MFCC_FEATURES * model.n_context) 0 ∧
     (DS_SetupStream model).audio_buffer = [] ∧
     (DS_SetupStream model).batch_buffer = [] ∧
     (DS_SetupStream model).accumulated_logits = []) := by
  obtain ⟨h1, h2, h3, h4⟩ := reachable_inv model hwf s hr
  refine ⟨⟨?_, ?_, ?_, ?_⟩, rfl, rfl, rfl, rfl⟩
  · exact (Nat.mod_eq_zero_of_dvd h1)
  · omega
  · exact (Nat.mod_eq_zero_of_dvd h3)
  · omega

/-- C7 witness. -/
theorem c7_buffer_invariants_witness :
    testModel.wellFormed ∧
    (((DS_SetupStream testModel).mfcc_buffer.length % MFCC_FEATURES = 0 ∧
      (DS_SetupStream testModel).mfcc_buffer.length ≤ testModel.mfcc_feats_per_timestep ∧
      (DS_SetupStream testModel).batch_buffer.length % testModel.mfcc_feats_per_timestep = 0 ∧
      (DS_SetupStream testModel).batch_buffer.length ≤
        testModel.n_steps * testModel.mfcc_feats_per_timestep) ∧
     ((DS_SetupStream testModel).mfcc_buffer =
        List.replicate (MFCC_FEATURES * testModel.n_context) 0 ∧
      (DS_SetupStream testModel).audio_buffer = [] ∧
      (DS_SetupStream testModel).batch_buffer = [] ∧
      (DS_SetupStream testModel).accumulated_logits = [])) :=
  ⟨testModel_wellFormed,
   c7_buffer_invariants testModel (DS_SetupStream testModel)
     testModel_wellFormed Reachable.setup⟩

theorem processAudioWindow_emit (model : ModelState) (s : StreamingState)
    (buf : List ℚ) (hsk : s.skip_next_mfcc = false) :
    processAudioWindow model s buf =
      pushMfccBuffer model
        { s with skip_next_mfcc := true
                 events := s.events ++ [Event.audioWindow true] }
        ((model.mfccFn buf).take (1 * MFCC_FEATURES)) := by
  unfold processAudioWindow
  dsimp only
  rw [hsk]
  simp

theorem processAudioWindow_skipped (model : ModelState) (s : StreamingState)
    (buf : List ℚ) (hsk : s.skip_next_mfcc = true) :
    processAudioWindow model s buf =
      { s with skip_next_mfcc := false
               events := s.events ++ [Event.audioWindow false] } := by
  unfold processAudioWindow
  dsimp only
  rw [hsk]
  simp

theorem addZeroWindows_succ_last (model : ModelState) (n : ℕ) :
    ∀ s : StreamingState,
    addZeroWindows model (n + 1) s =
      addZeroMfccWindow model (addZeroWindows model n s) := by
  induction n with
  | zero => intro s; rfl
  | succ n ih =>
      intro s
      rw [show addZeroWindows model (n + 1 + 1) s =
          addZeroWindows model (n + 1) (addZeroMfccWindow model s) from rfl,
        ih, show addZeroWindows model (n + 1) s =
          addZeroWindows model n (addZeroMfccWindow model s) from rfl]

/-- Running k zero-window pushes that all stay strictly below the feature
window capacity only appends 26k zeros (and k ghost push events). -/
theorem addZeros_below_run (model : ModelState) (k : ℕ) :
    ∀ s : StreamingState,
    s.mfcc_buffer.length + MFCC_FEATURES * k < model.mfcc_feats_per_timestep →
    addZeroWindows model k s =
      { s with mfcc_buffer := s.mfcc_buffer ++ List.replicate (MFCC_FEATURES * k) 0
               events := s.events ++
                 List.replicate k (Event.featPush (List.replicate MFCC_FEATURES 0)) } := by
  induction k with
  | zero => intro s _; simp [addZeroWindows]
  | succ k ih =>
      intro s h
      rw [show addZeroWindows model (k + 1) s =
          addZeroWindows model k (addZeroMfccWindow model s) from rfl]
      have hbelow : s.mfcc_buffer.length + (List.replicate MFCC_FEATURES (0:ℚ)).length <
          model.mfcc_feats_per_timestep := by
        rw [List.length_replicate]
        have : MFCC_FEATURES * 1 ≤ MFCC_FEATURES * (k + 1) :=
          Nat.mul_le_mul_left _ (by omega)
        omega
      rw [show addZeroMfccWindow model s =
          pushMfccBuffer model s (List.replicate MFCC_FEATURES 0) from rfl,
        pushMfcc_below model s _ hbelow]
      rw [ih]
      · have h26 : MFCC_FEATURES + MFCC_FEATURES * k = MFCC_FEATURES * (k + 1) := by ring
        simp only [List.append_assoc, ← List.replicate_add, h26, List.singleton_append]
        rw [← List.replicate_succ]
      · simp only [List.length_append, List.length_replicate]
        have h26 : MFCC_FEATURES + MFCC_FEATURES * k = MFCC_FEATURES * (k + 1) := by ring
        omega

theorem filterMap_none_replicate (f : Event → Option (ℕ × Bool)) (a : Event)
    (hf : f a = none) (k : ℕ) : (List.replicate k a).filterMap f = [] := by
  induction k with
  | zero => rfl
  | succ k ih => simp [List.replicate_succ, List.filterMap_cons, hf, ih]

/-- After a state with empty batch and empty logits receives exactly one
full timestep, the final-batch conditional of finishStream performs exactly
one single-frame inference, whichever side of the batch capacity the
timestep lands on. -/
theorem final_tail (model : ModelState) (hwf : model.wellFormed)
    (t : StreamingState) (full mf : List ℚ)
    (hfl : full.length = model.mfcc_feats_per_timestep)
    (hb : t.batch_buffer = []) (hlog : t.accumulated_logits = []) :
    ∃ ok,
      (if 0 < ({ processMfccWindow model t full with mfcc_buffer := mf } : StreamingState).batch_buffer.length
        then processBatch model
          { processMfccWindow model t full with mfcc_buffer := mf }
          ({ processMfccWindow model t full with mfcc_buffer := mf } : StreamingState).batch_buffer
          (({ processMfccWindow model t full with mfcc_buffer := mf } : StreamingState).batch_buffer.length /
            model.mfcc_feats_per_timestep)
        else { processMfccWindow model t full with mfcc_buffer := mf }).accumulated_logits =
        (ModelState.infer model full 1 []).1 ∧
      (if 0 < ({ processMfccWindow model t full with mfcc_buffer := mf } : StreamingState).batch_buffer.length
        then processBatch model
          { processMfccWindow model t full with mfcc_buffer := mf }
          ({ processMfccWindow model t full with mfcc_buffer := mf } : StreamingState).batch_buffer
          (({ processMfccWindow model t full with mfcc_buffer := mf } : StreamingState).batch_buffer.length /
            model.mfcc_feats_per_timestep)
        else { processMfccWindow model t full with mfcc_buffer := mf }).events =
        t.events ++ [Event.inferCall 1 ok] := by
  have hpos := fpt_pos model hwf
  have hfne : full ≠ [] := by
    intro h0
    rw [h0] at hfl
    simp at hfl
    omega
  rcases eq_or_lt_of_le hwf.2.1 with hn1 | hn2
  · -- n_steps = 1: the timestep fills the batch and is inferred immediately
    have hexact : t.batch_buffer.length + full.length =
        model.n_steps * model.mfcc_feats_per_timestep := by
      rw [hb, hfl, ← hn1]
      simp
    rw [batchFold_exact model full t hexact hfne]
    refine ⟨(ModelState.infer model (t.batch_buffer ++ full) model.n_steps
      t.accumulated_logits).2, ?_, ?_⟩
    · rw [if_neg (by simp)]
      show (ModelState.infer model (t.batch_buffer ++ full) model.n_steps
        t.accumulated_logits).1 = _
      rw [hb, hlog, ← hn1]
      simp
    · rw [if_neg (by simp)]
      show t.events ++ [Event.inferCall model.n_steps _] = _
      rw [← hn1]
  · -- n_steps ≥ 2: the timestep only part-fills the batch; the final
    -- partial-batch flush infers it with frame count 1
    have hbelow : t.batch_buffer.length + full.length <
        model.n_steps * model.mfcc_feats_per_timestep := by
      rw [hb, hfl]
      simpa using (Nat.mul_lt_mul_right hpos).mpr hn2
    rw [batchFold_below model full t hbelow]
    have hlen : ({ { t with batch_buffer := t.batch_buffer ++ full } with
        mfcc_buffer := mf } : StreamingState).batch_buffer.length =
        model.mfcc_feats_per_timestep := by
      simp [hb, hfl]
    refine ⟨(ModelState.infer model (t.batch_buffer ++ full) 1
      t.accumulated_logits).2, ?_, ?_⟩
    · rw [if_pos (by rw [hlen]; exact hpos), hlen, Nat.div_self hpos]
      show (ModelState.infer model (t.batch_buffer ++ full) 1
        t.accumulated_logits).1 = _
      rw [hb, hlog]
      simp
    · rw [if_pos (by rw [hlen]; exact hpos), hlen, Nat.div_self hpos]
      show t.events ++ [Event.inferCall 1 _] = _
      rfl

/-- The zero-sample finish: flushing the empty raw window (which the toggle
lets emit) and pushing n_context zero vectors completes exactly one timestep,
so finishStream performs exactly one single-frame inference call whose
result is the entire accumulated logit sequence. -/
theorem addZeroMfccWindow_def (model : ModelState) (s : StreamingState) :
    addZeroMfccWindow model s =
      pushMfccBuffer model s (List.replicate MFCC_FEATURES 0) := rfl

theorem finish_empty_stream (model : ModelState) (hwf : model.wellFormed) :
    ∃ buf, (finishStream model (DS_SetupStream model)).1.accumulated_logits =
        (ModelState.infer model buf 1 []).1 ∧
      ((finishStream model (DS_SetupStream model)).1.events.filterMap inferArg).map
        Prod.fst = [1] := by
  have hpos := fpt_pos model hwf
  have hvlen : ((model.mfccFn (DS_SetupStream model).audio_buffer).take
      (1 * MFCC_FEATURES)).length = MFCC_FEATURES := by
    rw [List.length_take, hwf.2.2]
    simp
  have hflush := processAudioWindow_emit model (DS_SetupStream model)
    (DS_SetupStream model).audio_buffer rfl
  set v := (model.mfccFn (DS_SetupStream model).audio_buffer).take
    (1 * MFCC_FEATURES) with hvdef
  set T0 : StreamingState := { DS_SetupStream model with skip_next_mfcc := true, events := (DS_SetupStream model).events ++ [Event.audioWindow true] } with hT0
  have hT0mfcc : T0.mfcc_buffer = List.replicate (MFCC_FEATURES * model.n_context) 0 := rfl
  have hT0events : T0.events = [Event.audioWindow true] := rfl
  have hvne : v ≠ [] := by
    intro h0
    rw [h0] at hvlen
    exact absurd hvlen (by decide)
  rcases Nat.eq_zero_or_pos model.n_context with hc0 | hcpos
  · -- n_context = 0: the flushed window itself completes the only timestep
    have hex : T0.mfcc_buffer.length + v.length = model.mfcc_feats_per_timestep := by
      rw [hT0mfcc, List.length_replicate, hvlen, hwf.1, hc0]
      ring
    have hpush := pushMfcc_exact model T0 v hex hvne
    obtain ⟨ok, hlg, hev⟩ := final_tail model hwf
      { T0 with mfcc_buffer := T0.mfcc_buffer ++ v, events := T0.events ++ [Event.featPush v, Event.timestep (T0.mfcc_buffer ++ v)] }
      (T0.mfcc_buffer ++ v) ((T0.mfcc_buffer ++ v).drop MFCC_FEATURES)
      (by rw [List.length_append]; exact hex) rfl rfl
    refine ⟨T0.mfcc_buffer ++ v, ?_, ?_⟩
    · unfold finishStream
      dsimp only
      rw [hflush, hpush, hc0]
      simp only [addZeroWindows]
      exact hlg
    · unfold finishStream
      dsimp only
      rw [hflush, hpush, hc0]
      simp only [addZeroWindows]
      rw [hev, hT0events]
      simp [List.filterMap_append, List.filterMap_cons, inferArg]
  · -- n_context ≥ 1: the last zero-context push completes the only timestep
    obtain ⟨k, hk⟩ : ∃ k, model.n_context = k + 1 :=
      ⟨model.n_context - 1, by omega⟩
    have hbelow1 : T0.mfcc_buffer.length + v.length < model.mfcc_feats_per_timestep := by
      rw [hT0mfcc, List.length_replicate, hvlen, hwf.1, hk]
      simp only [MFCC_FEATURES]
      omega
    have hpushA := pushMfcc_below model T0 v hbelow1
    set S1 : StreamingState := { T0 with mfcc_buffer := T0.mfcc_buffer ++ v, events := T0.events ++ [Event.featPush v] } with hS1
    have hrun := addZeros_below_run model k S1 (by
      simp only [hS1, hT0, DS_SetupStream, List.length_append, List.length_replicate,
        hvlen, hwf.1, hk, MFCC_FEATURES]
      omega)
    set SB1 : StreamingState := { S1 with mfcc_buffer := S1.mfcc_buffer ++ List.replicate (MFCC_FEATURES * k) 0, events := S1.events ++ List.replicate k (Event.featPush (List.replicate MFCC_FEATURES 0)) } with hSB1
    have hexB : SB1.mfcc_buffer.length + (List.replicate MFCC_FEATURES (0:ℚ)).length =
        model.mfcc_feats_per_timestep := by
      simp only [hSB1, hS1, hT0, DS_SetupStream, List.length_append,
        List.length_replicate, hvlen, hwf.1, hk, MFCC_FEATURES]
      omega
    have hzne : (List.replicate MFCC_FEATURES (0:ℚ)) ≠ [] := by decide
    have hpushB := pushMfcc_exact model SB1 (List.replicate MFCC_FEATURES 0) hexB hzne
    obtain ⟨ok, hlg, hev⟩ := final_tail model hwf
      { SB1 with mfcc_buffer := SB1.mfcc_buffer ++ List.replicate MFCC_FEATURES 0, events := SB1.events ++ [Event.featPush (List.replicate MFCC_FEATURES 0), Event.timestep (SB1.mfcc_buffer ++ List.replicate MFCC_FEATURES 0)] }
      (SB1.mfcc_buffer ++ List.replicate MFCC_FEATURES 0)
      ((SB1.mfcc_buffer ++ List.replicate MFCC_FEATURES 0).drop MFCC_FEATURES)
      (by rw [List.length_append]; exact hexB)
      (by simp [hSB1, hS1, hT0, DS_SetupStream])
      (by simp [hSB1, hS1, hT0, DS_SetupStream])
    refine ⟨SB1.mfcc_buffer ++ List.replicate MFCC_FEATURES 0, ?_, ?_⟩
    · unfold finishStream
      dsimp only
      rw [hflush, hpushA, hk, addZeroWindows_succ_last, hrun,
        addZeroMfccWindow_def, hpushB]
      exact hlg
    · unfold finishStream
      dsimp only
      rw [hflush, hpushA, hk, addZeroWindows_succ_last, hrun,
        addZeroMfccWindow_def, hpushB, hev]
      simp only [hSB1, hS1, hT0events]
      simp [DS_SetupStream, List.filterMap_append, List.filterMap_cons, inferArg,
        filterMap_none_replicate inferArg
          (Event.featPush (List.replicate MFCC_FEATURES 0)) rfl]

/-- C6 (amended).  Empty-input decode: decoding an empty accumulated logit
sequence returns the empty transcript (the decoder contract).  However a
session Created → Active → finish() with zero fed samples does not decode an
empty logit sequence: finishStream still flushes the (empty) raw window,
whose features plus the n_context zero vectors complete exactly one
timestep, so exactly one single-frame inference runs and the transcript is
the decode of that call's logits; it equals the empty transcript when the
inference engine appends nothing (e.g. always fails). -/
theorem c6_empty_stream_decode (model : ModelState) (hwf : model.wellFormed)
    (hdec : model.decodeFn [] = "") :
    ModelState.decode model [] = "" ∧
    (∃ buf, (finishStream model (DS_SetupStream model)).1.accumulated_logits =
        (ModelState.infer model buf 1 []).1 ∧
      ((finishStream model (DS_SetupStream model)).1.events.filterMap inferArg).map
        Prod.fst = [1]) ∧
    ((∀ i n, model.inferFn i n = none) →
      (finishStream model (DS_SetupStream model)).2 = "") := by
  have hmain := finish_empty_stream model hwf
  have hdecodeNil : ModelState.decode model [] = "" := by
    simp [ModelState.decode, hdec]
  refine ⟨hdecodeNil, hmain, ?_⟩
  intro hnone
  obtain ⟨buf, hlog, _⟩ := hmain
  have h2 : (finishStream model (DS_SetupStream model)).2 =
      model.decode (finishStream model (DS_SetupStream model)).1.accumulated_logits := rfl
  rw [h2, hlog]
  have hempty : (ModelState.infer model buf 1 []).1 = [] := by
    simp [ModelState.infer, hnone]
  rw [hempty]
  exact hdecodeNil

set_option maxRecDepth 40000 in
/-- C6 counterexample: on the concrete test model — whose decoder does
return the empty transcript on empty input — a session that feeds zero
samples and calls finishStream gets back a NON-empty transcript, because
the flushed empty window plus the zero-context padding still complete one
timestep whose inference appends num_classes logits: the claim that the
zero-sample session returns the empty transcript is false. -/
theorem c6_empty_stream_counterexample :
    testModel.decodeFn [] = "" ∧
    (finishStream testModel (DS_SetupStream testModel)).1.accumulated_logits.length = 2 ∧
    (finishStream testModel (DS_SetupStream testModel)).2 = "x" ∧
    (finishStream testModel (DS_SetupStream testModel)).2 ≠ "" := by
  refine ⟨rfl, ?_, ?_, ?_⟩ <;> decide

set_option maxRecDepth 40000 in
/-- C6 witness. -/
theorem c6_empty_stream_decode_witness :
    testModel.wellFormed ∧ testModel.decodeFn [] = "" ∧
    (ModelState.decode testModel [] = "" ∧
     (∃ buf, (finishStream testModel (DS_SetupStream testModel)).1.accumulated_logits =
         (ModelState.infer testModel buf 1 []).1 ∧
       ((finishStream testModel (DS_SetupStream testModel)).1.events.filterMap
         inferArg).map Prod.fst = [1]) ∧
     ((∀ i n, testModel.inferFn i n = none) →
       (finishStream testModel (DS_SetupStream testModel)).2 = "")) :=
  ⟨testModel_wellFormed, rfl,
   c6_empty_stream_decode testModel testModel_wellFormed rfl⟩

/-- Abbreviations for the batch-boundary scenario on testModel: the pushed
zero feature vector, the event constants and the intermediate states after
each completed raw window of a 1680-zero-sample feed. -/
def c4z : List ℚ := List.replicate 26 0

def c4A : Event := Event.audioWindow true

def c4F : Event := Event.audioWindow false

def c4P : Event := Event.featPush c4z

def c4T : Event := Event.timestep (List.replicate 78 0)

def c4I2 : Event := Event.inferCall 2 true

def c4S1 : StreamingState :=
  ⟨[], List.replicate 240 0, 0, List.replicate 52 0, [], true, [c4A, c4P]⟩

def c4S2 : StreamingState :=
  ⟨[], List.replicate 240 0, 0, List.replicate 52 0, [], false, [c4A, c4P, c4F]⟩

def c4S3 : StreamingState :=
  ⟨[], List.replicate 240 0, 0, List.replicate 52 0, List.replicate 78 0, true,
    [c4A, c4P, c4F, c4A, c4P, c4T]⟩

def c4S4 : StreamingState :=
  ⟨[], List.replicate 240 0, 0, List.replicate 52 0, List.replicate 78 0, false,
    [c4A, c4P, c4F, c4A, c4P, c4T, c4F]⟩

def c4S5 : StreamingState :=
  ⟨List.replicate 4 0, List.replicate 240 0, 0, List.replicate 52 0, [], true,
    [c4A, c4P, c4F, c4A, c4P, c4T, c4F, c4A, c4P, c4T, c4I2]⟩

def c4S6 : StreamingState :=
  ⟨List.replicate 4 0, List.replicate 240 0, 0, List.replicate 52 0, [], false,
    [c4A, c4P, c4F, c4A, c4P, c4T, c4F, c4A, c4P, c4T, c4I2, c4F]⟩

def c4S7 : StreamingState :=
  ⟨List.replicate 4 0, List.replicate 240 0, 0, List.replicate 52 0,
    List.replicate 78 0, true,
    [c4A, c4P, c4F, c4A, c4P, c4T, c4F, c4A, c4P, c4T, c4I2, c4F, c4A, c4P, c4T]⟩

def c4S8 : StreamingState :=
  ⟨List.replicate 4 0, List.replicate 240 0, 0, List.replicate 52 0,
    List.replicate 78 0, false,
    [c4A, c4P, c4F, c4A, c4P, c4T, c4F, c4A, c4P, c4T, c4I2, c4F, c4A, c4P, c4T, c4F]⟩

def c4S9 : StreamingState :=
  ⟨List.replicate 8 0, List.replicate 240 0, 0, List.replicate 52 0, [], true,
    [c4A, c4P, c4F, c4A, c4P, c4T, c4F, c4A, c4P, c4T, c4I2, c4F, c4A, c4P, c4T,
     c4F, c4A, c4P, c4T, c4I2]⟩

set_option maxRecDepth 40000 in
/-- C4.  Batch boundary scenario: on the test model (stepsPerBatch = 2,
featuresPerTimestep = 78, contextSize = 1, featureDim = 26), feeding 1680
samples — enough to produce 5 timesteps in total across feed and finish —
causes exactly two full-batch inference calls of 2 timesteps each during
feedAudioContent, and finishStream adds exactly one final partial-batch
inference call of 1 timestep, for exactly 5 emitted timesteps overall. -/
theorem c4_batch_boundaries :
    (feedAudioContent testModel (DS_SetupStream testModel)
        (List.replicate 1680 0)).events.filterMap inferArg =
      [(2, true), (2, true)] ∧
    ((finishStream testModel (feedAudioContent testModel (DS_SetupStream testModel)
        (List.replicate 1680 0))).1.events.filterMap inferArg) =
      [(2, true), (2, true), (1, true)] ∧
    ((finishStream testModel (feedAudioContent testModel (DS_SetupStream testModel)
        (List.replicate 1680 0))).1.events.filterMap tsArg).length = 5 := by
  have st1 : feedAudioContent testModel (DS_SetupStream testModel)
      (List.replicate 400 0) = c4S1 := by
    rw [feed_exact testModel (List.replicate 400 0) (DS_SetupStream testModel)
      (by decide) (by decide)]
    simp only [DS_SetupStream, preemphasize_zeros, lastSampleAfter_zeros]
    decide
  have st2 : feedAudioContent testModel c4S1 (List.replicate 160 0) = c4S2 := by
    rw [feed_exact testModel (List.replicate 160 0) c4S1 (by decide) (by decide)]
    simp only [c4S1, preemphasize_zeros, lastSampleAfter_zeros]
    decide
  have st3 : feedAudioContent testModel c4S2 (List.replicate 160 0) = c4S3 := by
    rw [feed_exact testModel (List.replicate 160 0) c4S2 (by decide) (by decide)]
    simp only [c4S2, preemphasize_zeros, lastSampleAfter_zeros]
    decide
  have st4 : feedAudioContent testModel c4S3 (List.replicate 160 0) = c4S4 := by
    rw [feed_exact testModel (List.replicate 160 0) c4S3 (by decide) (by decide)]
    simp only [c4S3, preemphasize_zeros, lastSampleAfter_zeros]
    decide
  have st5 : feedAudioContent testModel c4S4 (List.replicate 160 0) = c4S5 := by
    rw [feed_exact testModel (List.replicate 160 0) c4S4 (by decide) (by decide)]
    simp only [c4S4, preemphasize_zeros, lastSampleAfter_zeros]
    decide
  have st6 : feedAudioContent testModel c4S5 (List.replicate 160 0) = c4S6 := by
    rw [feed_exact testModel (List.replicate 160 0) c4S5 (by decide) (by decide)]
    simp only [c4S5, preemphasize_zeros, lastSampleAfter_zeros]
    decide
  have st7 : feedAudioContent testModel c4S6 (List.replicate 160 0) = c4S7 := by
    rw [feed_exact testModel (List.replicate 160 0) c4S6 (by decide) (by decide)]
    simp only [c4S6, preemphasize_zeros, lastSampleAfter_zeros]
    decide
  have st8 : feedAudioContent testModel c4S7 (List.replicate 160 0) = c4S8 := by
    rw [feed_exact testModel (List.replicate 160 0) c4S7 (by decide) (by decide)]
    simp only [c4S7, preemphasize_zeros, lastSampleAfter_zeros]
    decide
  have st9 : feedAudioContent testModel c4S8 (List.replicate 160 0) = c4S9 := by
    rw [feed_exact testModel (List.replicate 160 0) c4S8 (by decide) (by decide)]
    simp only [c4S8, preemphasize_zeros, lastSampleAfter_zeros]
    decide
  have e0 : (List.replicate 1680 (0 : ℤ)) =
      List.replicate 400 0 ++ (List.replicate 160 0 ++ (List.replicate 160 0 ++
        (List.replicate 160 0 ++ (List.replicate 160 0 ++ (List.replicate 160 0 ++
          (List.replicate 160 0 ++ (List.replicate 160 0 ++
            List.replicate 160 0))))))) := by
    simp only [← List.replicate_add]
  have hfeed : feedAudioContent testModel (DS_SetupStream testModel)
      (List.replicate 1680 0) = c4S9 := by
    rw [e0, feed_append, st1, feed_append, st2, feed_append, st3, feed_append, st4,
      feed_append, st5, feed_append, st6, feed_append, st7, feed_append, st8, st9]
  refine ⟨?_, ?_, ?_⟩ <;> rw [hfeed] <;> decide

end DeepSpeech
